import Mathlib

/-!
Shallow embedding of src/AITest/preprocess/feature_utils.py.

Python values that can appear in a raw sample payload are modelled by the
inductive type PyVal; machine floats are modelled exactly by rationals
(every literal in the repository and spec is a finite decimal).  A Python
dict is modelled as an insertion-ordered association list with unique keys;
dict assignment is insertOrReplace (update in place, else append), matching
CPython's insertion-order semantics.  Exceptions that the source swallows
are modelled by Option-returning coercions; the one place an exception can
escape (float() inside vectorize_with_cats) makes that function return an
Option.  Python's float(str) accepts a few forms (exponents, inf/nan,
surrounding whitespace, underscores) that parseFloat below does not; no
claim in this development depends on those forms.  Python's str() of a
float renders a decimal string; pyStr renders the rational's canonical
num/den form instead; again no claim depends on the rendering, only on
str() of a string being the identity.
-/

namespace FeatureUtils

/-- Model of a Python/JSON value. -/
inductive PyVal where
  | pybool (b : Bool)
  | pynum (q : ℚ)
  | pystr (s : String)
  | pylist (items : List PyVal)
  | pydict (entries : List (String × PyVal))
  | pynone
deriving Inhabited

/-- A value stored in an extracted feature dict: the source stores either a
float or (under a key tagged with the prefix of five characters underscore
c a t underscore) a raw string. -/
inductive FieldVal where
  | num (q : ℚ)
  | str (s : String)
deriving DecidableEq, Inhabited

/-- An extracted feature mapping (Python dict str -> float or str). -/
abbrev FieldMap := List (String × FieldVal)

/-- A raw sample record (Python dict, of which only the key called value is
read by the source). -/
abbrev RawSample := List (String × PyVal)

/-- First-match association-list lookup (Python dict read). -/
def alookup {β : Type} : List (String × β) → String → Option β
  | [], _ => none
  | p :: rest, key => if p.1 = key then some p.2 else alookup rest key

/-- Python dict assignment: replace in place if the key exists (keeping its
position), else append at the end. -/
def insertOrReplace {β : Type} (m : List (String × β)) (k : String) (v : β) :
    List (String × β) :=
  if (alookup m k).isSome then
    m.map (fun p => if p.1 = k then (p.1, v) else p)
  else m ++ [(k, v)]

/-- Python set.add for a set modelled as a duplicate-free list. -/
def addIfAbsent (l : List String) (k : String) : List String :=
  if k ∈ l then l else l ++ [k]

/-- Little-endian base-10 digits, fuelled so the recursion is structural
(the fuel n is always enough since n / 10 < n for n > 0). -/
def digitsAux : Nat → Nat → List Nat
  | 0, _ => []
  | fuel + 1, n => if n = 0 then [] else (n % 10) :: digitsAux fuel (n / 10)

/-- Little-endian base-10 digits of a natural number. -/
def natDigits (n : Nat) : List Nat := digitsAux n n

/-- Value of a little-endian digit list (the left inverse of natDigits). -/
def undigits : List Nat → Nat
  | [] => 0
  | d :: ds => d + 10 * undigits ds

/-- The character for one decimal digit. -/
def digitChar : Nat → Char
  | 0 => '0' | 1 => '1' | 2 => '2' | 3 => '3' | 4 => '4'
  | 5 => '5' | 6 => '6' | 7 => '7' | 8 => '8' | 9 => '9'
  | _ => '?'

/-- Decimal rendering of a natural number (Python str of an int). -/
def natStr (n : Nat) : String :=
  if n = 0 then ("0") else String.mk (((natDigits n).map digitChar).reverse)

/-- Decimal rendering of an integer. -/
def intStr : Int → String
  | Int.ofNat n => natStr n
  | Int.negSucc n => ("-") ++ natStr (n + 1)

/-- Rendering of the rational stored for a Python float.  The repository
only ever applies str() to strings on the paths the claims exercise; this
canonical num/den rendering stands in for Python's float repr. -/
def ratStr (q : ℚ) : String :=
  if q.den = 1 then intStr q.num else intStr q.num ++ ("/") ++ natStr q.den

/-- Python str() applied to a stored feature value. -/
def pyStr : FieldVal → String
  | .num q => ratStr q
  | .str s => s

/-- Numeric value of a decimal digit character, none for anything else. -/
def digitVal (c : Char) : Option Nat :=
  if c = '0' then some 0 else if c = '1' then some 1
  else if c = '2' then some 2 else if c = '3' then some 3
  else if c = '4' then some 4 else if c = '5' then some 5
  else if c = '6' then some 6 else if c = '7' then some 7
  else if c = '8' then some 8 else if c = '9' then some 9
  else none

/-- All characters are decimal digits. -/
def allDigits (cs : List Char) : Bool := cs.all (fun c => (digitVal c).isSome)

/-- Value of a digit string, most significant first. -/
def digitsVal (cs : List Char) : Nat :=
  cs.foldl (fun a c => 10 * a + (digitVal c).getD 0) 0

/-- Ten to the n, structurally. -/
def pow10 : Nat → Nat
  | 0 => 1
  | n + 1 => 10 * pow10 n

/-- Split a character list at the first dot, if any. -/
def splitFirstDot : List Char → List Char × Option (List Char)
  | [] => ([], none)
  | c :: cs =>
    if c = '.' then ([], some cs)
    else
      let r := splitFirstDot cs
      (c :: r.1, r.2)

/-- Model of Python float(str): optional sign, then decimal digits with an
optional fractional part, at least one digit in total.  (Exponents, inf,
nan, whitespace and underscores are not modelled; no claim depends on
them.)  The result is exact as a rational. -/
def parseFloat (s : String) : Option ℚ :=
  let cs := s.data
  let signed : Bool × List Char :=
    match cs with
    | '-' :: r => (true, r)
    | '+' :: r => (false, r)
    | _ => (false, cs)
  let parts := splitFirstDot signed.2
  let ip := parts.1
  let fp := (parts.2).getD []
  if allDigits ip && allDigits fp && !(ip ++ fp).isEmpty then
    let v : Nat := digitsVal (ip ++ fp)
    let d : Nat := pow10 fp.length
    if signed.1 then some (mkRat (-(v : Int)) d) else some (mkRat (v : Int) d)
  else none

/-- Python startswith, on the underlying character lists. -/
def strStarts (s p : String) : Bool := p.data.isPrefixOf s.data

/-- Python string slicing s[n:]. -/
def strDrop (s : String) (n : Nat) : String := String.mk (s.data.drop n)

/-- The reserved categorical key tag of the source. -/
def catTag : String := "_cat_"

/-- The one-hot separator of the source. -/
def isSep : String := "__is_"

/-- Split a character list at the first occurrence of the one-hot
separator: Python key.partition applied to the separator, returning the
parts before and after the separator, or none when it does not occur
(Python: the separator in key tests false). -/
def splitFirstIs : List Char → Option (List Char × List Char)
  | [] => none
  | c :: cs =>
    if isSep.data.isPrefixOf (c :: cs) then some ([], (c :: cs).drop 5)
    else
      match splitFirstIs cs with
      | some r => some (c :: r.1, r.2)
      | none => none

/-- Python float() applied to an arbitrary payload value (booleans convert,
numbers pass through, strings parse or fail, everything else fails). -/
def tryFloat : PyVal → Option ℚ
  | .pybool b => some (if b then 1 else 0)
  | .pynum q => some q
  | .pystr s => parseFloat s
  | _ => none

/-- Python float() applied to a stored feature value (reached by
vectorize_with_cats through dict_features.get). -/
def pyFloat : FieldVal → Option ℚ
  | .num q => some q
  | .str s => parseFloat s

/-- JSON whitespace skipping. -/
def jskipWs (cs : List Char) : List Char :=
  cs.dropWhile (fun c => c = ' ' || c = '\t' || c = '\n' || c = '\r')

/-- Parse the remainder of a JSON string literal (the opening quote already
consumed).  Only the simple escapes are interpreted; unicode escapes are
passed through verbatim (no claim depends on them). -/
def jstring : List Char → Option (String × List Char)
  | [] => none
  | '"' :: rest => some (("") , rest)
  | '\\' :: e :: rest =>
    match jstring rest with
    | some r =>
      let c : Char :=
        if e = 'n' then '\n' else if e = 't' then '\t'
        else if e = 'r' then '\r' else e
      some (String.mk (c :: (r.1).data), r.2)
    | none => none
  | c :: rest =>
    match jstring rest with
    | some r => some (String.mk (c :: (r.1).data), r.2)
    | none => none

/-- Greedily take the digit span of a JSON number. -/
def jdigitSpan (cs : List Char) : List Char × List Char :=
  (cs.takeWhile (fun c => (digitVal c).isSome), cs.dropWhile (fun c => (digitVal c).isSome))

/-- Parse a JSON number (sign, digits, optional fraction; exponents not
modelled).  Integers and floats are both modelled as rationals. -/
def jnumber (cs : List Char) : Option (ℚ × List Char) :=
  let signed : Bool × List Char :=
    match cs with
    | '-' :: r => (true, r)
    | _ => (false, cs)
  let ispan := jdigitSpan signed.2
  if ispan.1.isEmpty then none
  else
    match ispan.2 with
    | '.' :: r =>
      let fspan := jdigitSpan r
      if fspan.1.isEmpty then none
      else
        let v : Nat := digitsVal (ispan.1 ++ fspan.1)
        let q : ℚ := mkRat (if signed.1 then -(v : Int) else (v : Int)) (pow10 fspan.1.length)
        some (q, fspan.2)
    | rest =>
      let v : Nat := digitsVal ispan.1
      some ((if signed.1 then -(v : ℚ) else (v : ℚ)), rest)

mutual

/-- Parse one JSON value.  The fuel argument only bounds the recursion
depth so that the function is structurally recursive; jsonLoads passes
enough fuel for any input. -/
def jvalue (fuel : Nat) (cs : List Char) : Option (PyVal × List Char) :=
  match fuel with
  | 0 => none
  | fuel + 1 =>
    if ("null").data.isPrefixOf cs then some (.pynone, cs.drop 4)
    else if ("true").data.isPrefixOf cs then some (.pybool true, cs.drop 4)
    else if ("false").data.isPrefixOf cs then some (.pybool false, cs.drop 5)
    else
      match cs with
      | '"' :: rest =>
        match jstring rest with
        | some r => some (.pystr r.1, r.2)
        | none => none
      | '[' :: rest =>
        (match jskipWs rest with
         | ']' :: r2 => some (.pylist [], r2)
         | r => match jarr fuel r with
                | some a => some (.pylist a.1, a.2)
                | none => none)
      | '{' :: rest =>
        (match jskipWs rest with
         | '}' :: r2 => some (.pydict [], r2)
         | r => match jobj fuel [] r with
                | some o => some (.pydict o.1, o.2)
                | none => none)
      | _ =>
        match jnumber cs with
        | some n => some (.pynum n.1, n.2)
        | none => none

/-- Parse the comma-separated items of a JSON array up to the closing
bracket. -/
def jarr (fuel : Nat) (cs : List Char) : Option (List PyVal × List Char) :=
  match fuel with
  | 0 => none
  | fuel + 1 =>
    match jvalue fuel (jskipWs cs) with
    | none => none
    | some v =>
      match jskipWs v.2 with
      | ',' :: r =>
        (match jarr fuel r with
         | some a => some (v.1 :: a.1, a.2)
         | none => none)
      | ']' :: r => some ([v.1], r)
      | _ => none

/-- Parse the members of a JSON object up to the closing brace; duplicate
keys behave like Python (the later value wins, the position of the first
occurrence is kept). -/
def jobj (fuel : Nat) (acc : List (String × PyVal)) (cs : List Char) :
    Option (List (String × PyVal) × List Char) :=
  match fuel with
  | 0 => none
  | fuel + 1 =>
    match jskipWs cs with
    | '"' :: r =>
      (match jstring r with
       | none => none
       | some k =>
         match jskipWs k.2 with
         | ':' :: r2 =>
           (match jvalue fuel (jskipWs r2) with
            | none => none
            | some v =>
              let acc2 := insertOrReplace acc k.1 v.1
              match jskipWs v.2 with
              | ',' :: r3 => jobj fuel acc2 r3
              | '}' :: r3 => some (acc2, r3)
              | _ => none)
         | _ => none)
    | _ => none

end

/-- Model of Python json.loads restricted to what the source consumes:
parse one JSON document, requiring the whole input to be consumed, and
fail (raise, in Python) otherwise. -/
def jsonLoads (s : String) : Option PyVal :=
  match jvalue (2 * s.length + 2) (jskipWs s.data) with
  | some v => if jskipWs v.2 = [] then some v.1 else none
  | none => none

/-- Processing of one key/value pair of a mapping payload, mirroring the
loop body shared verbatim by the dict branch and the parsed-JSON branch of
extract_numeric_features (and, with synthesized item names, by the list
branch): booleans become 0/1, float-coercible values become numbers,
remaining strings are stored under the tagged key, anything else is
dropped. -/
def procEntry (acc : FieldMap) (k : String) (v : PyVal) : FieldMap :=
  match v with
  | .pybool b => insertOrReplace acc k (.num (if b then 1 else 0))
  | _ =>
    match tryFloat v with
    | some q => insertOrReplace acc k (.num q)
    | none =>
      match v with
      | .pystr s => insertOrReplace acc (catTag ++ k) (.str s)
      | _ => acc

/-- Fold procEntry over the pairs of a mapping payload. -/
def procEntries (es : List (String × PyVal)) : FieldMap :=
  es.foldl (fun acc kv => procEntry acc kv.1 kv.2) []

/-- Synthesized names for the entries of a sequence payload: item_i. -/
def enumItems (items : List PyVal) : List (String × PyVal) :=
  items.enum.map (fun p => (("item_") ++ natStr p.1, p.2))

/-- extract_numeric_features from feature_utils.py: normalize
sample.get('value') into a flat feature dict.  The list branch of the
source applies exactly the mapping-branch coercions to the synthesized
key item_i (its tagged key _cat_item_i equals the tag applied to item_i),
so it is expressed through the same procEntries. -/
def extract_numeric_features (sample : RawSample) : FieldMap :=
  match (alookup sample ("value")).getD .pynone with
  | .pydict es => procEntries es
  | .pystr t =>
    (match jsonLoads t with
     | some (.pydict es) => procEntries es
     | _ => [])
  | .pylist items => procEntries (enumItems items)
  | _ => []

/-- A per-field frequency counter (collections.Counter), insertion
ordered. -/
abbrev Counter := List (String × Nat)

/-- Counter increment: c[v] += 1. -/
def bumpCount (c : Counter) (v : String) : Counter :=
  if (alookup c v).isSome then
    c.map (fun p => if p.1 = v then (p.1, p.2 + 1) else p)
  else c ++ [(v, 1)]

/-- defaultdict(Counter) increment: cc[f][v] += 1. -/
def bumpField (cc : List (String × Counter)) (f v : String) :
    List (String × Counter) :=
  if (alookup cc f).isSome then
    cc.map (fun p => if p.1 = f then (p.1, bumpCount p.2 v) else p)
  else cc ++ [(f, bumpCount [] v)]

/-- The single corpus pass of build_keys_from_samples: accumulate the
per-field categorical counters and the set of numeric key names. -/
def scanCorpus (samples : List RawSample) :
    List (String × Counter) × List String :=
  samples.foldl
    (fun acc s =>
      (extract_numeric_features s).foldl
        (fun acc2 p =>
          if strStarts p.1 catTag then
            (bumpField acc2.1 (strDrop p.1 5) (pyStr p.2), acc2.2)
          else (acc2.1, addIfAbsent acc2.2 p.1))
        acc)
    ([], [])

/-- The accumulated categorical counters of a corpus. -/
def catCountsOf (samples : List RawSample) : List (String × Counter) :=
  (scanCorpus samples).1

/-- The accumulated distinct numeric key names of a corpus, in first-seen
order (the source keeps them in a set and sorts them before use, so only
the membership matters). -/
def numericNamesOf (samples : List RawSample) : List String :=
  (scanCorpus samples).2

/-- Stable descending insertion by count: a new element goes after every
element of at least its count, so equal counts keep their original
(first-seen) order.  This is the sort underlying Counter.most_common. -/
def insertDesc (p : String × Nat) : Counter → Counter
  | [] => [p]
  | q :: rest => if p.2 ≤ q.2 then q :: insertDesc p rest else p :: q :: rest

/-- Stable sort of a counter by descending count. -/
def sortDescSnd (l : Counter) : Counter :=
  l.foldl (fun acc p => insertDesc p acc) []

/-- Counter.most_common(n): the n highest-count values, ties in first-seen
order. -/
def most_common (c : Counter) (n : Nat) : List String :=
  ((sortDescSnd c).take n).map Prod.fst

/-- The categorical plan of build_keys_from_samples: each counted field
mapped to its most_common(max_ohe) values. -/
def catMapOf (samples : List RawSample) (max_ohe : Nat) :
    List (String × List String) :=
  (catCountsOf samples).map (fun p => (p.1, most_common p.2 max_ohe))

/-- The numeric columns of build_keys_from_samples: the sorted numeric key
names (the source filters the tagged keys once more, though the scan never
records one). -/
def numColsOf (samples : List RawSample) : List String :=
  List.insertionSort (· ≤ ·)
    ((numericNamesOf samples).filter (fun k => !(strStarts k catTag)))

/-- The categorical fields of build_keys_from_samples, sorted by name. -/
def catFieldsSorted (samples : List RawSample) (max_ohe : Nat) : List String :=
  List.insertionSort (· ≤ ·) ((catMapOf samples max_ohe).map Prod.fst)

/-- build_keys_from_samples from feature_utils.py. -/
def build_keys_from_samples (samples : List RawSample) (max_ohe : Nat) :
    List String × List (String × List String) :=
  let cat_map := catMapOf samples max_ohe
  let keys := (catFieldsSorted samples max_ohe).foldl
    (fun ks f =>
      (ks ++ ((alookup cat_map f).getD []).map (fun c => f ++ isSep ++ c))
        ++ [f ++ isSep ++ ("other")])
    (numColsOf samples)
  (keys, cat_map)

/-- The precomputed raw categorical values of a feature dict: for every
tagged key, the field name mapped to str() of the stored value (later
duplicates overwrite, as in the source's dict). -/
def catsOf (df : FieldMap) : List (String × String) :=
  df.foldl
    (fun cs p =>
      if strStarts p.1 catTag then insertOrReplace cs (strDrop p.1 5) (pyStr p.2)
      else cs)
    []

/-- The per-column body of the vectorize_with_cats loop.  A key containing
the one-hot separator is partitioned at its first occurrence and encoded
against the categorical values; any other key is looked up as a numeric
feature, absent keys defaulting to 0.0.  The Option models the ValueError
Python's float() raises when the looked-up value is a non-numeric
string. -/
def encOne (df : FieldMap) (cats : List (String × String))
    (cat_map : List (String × List String)) (key : String) : Option ℚ :=
  match splitFirstIs key.data with
  | some fc =>
    let field := String.mk fc.1
    let cat := String.mk fc.2
    some
      (match alookup cats field with
       | none => 0
       | some cv =>
         if cat = ("other") then
           (if cv ∈ (alookup cat_map field).getD [] then 0 else 1)
         else if cv = cat then 1 else 0)
  | none =>
    match alookup df key with
    | none => some 0
    | some v => pyFloat v

/-- The output loop of vectorize_with_cats: one value per key, aborting
(as an uncaught exception would) if any column fails to encode. -/
def encodeKeys (df : FieldMap) (cats : List (String × String))
    (cat_map : List (String × List String)) : List String → Option (List ℚ)
  | [] => some []
  | key :: ks =>
    match encOne df cats cat_map key, encodeKeys df cats cat_map ks with
    | some x, some xs => some (x :: xs)
    | _, _ => none

/-- vectorize_with_cats from feature_utils.py. -/
def vectorize_with_cats (df : FieldMap) (keys : List String)
    (cat_map : List (String × List String)) : Option (List ℚ) :=
  encodeKeys df (catsOf df) cat_map keys

/-- Whether a stored feature value is numeric. -/
def FieldVal.isNum : FieldVal → Bool
  | .num _ => true
  | .str _ => false

/-- The well-formedness invariant of a FieldMap as the spec defines the
type (and as extract_numeric_features always produces it): every entry
whose key is not tagged holds a numeric value. -/
def fieldMapWF (fm : FieldMap) : Bool :=
  fm.all (fun p => strStarts p.1 catTag || p.2.isNum)

/-- A payload is malformed for the extractor when it is not a mapping, not
a sequence, and not a string that parses as a JSON mapping. -/
def malformedPayload : PyVal → Bool
  | .pydict _ => false
  | .pylist _ => false
  | .pystr t =>
    (match jsonLoads t with
     | some (.pydict _) => false
     | _ => true)
  | _ => true

/-- No duplicate keys (the guarantee every Python dict gives). -/
def nodupKeys : List String → Bool
  | [] => true
  | k :: ks => !(ks.contains k) && nodupKeys ks

/-- A mapping payload's keys avoid the reserved categorical tag and are
duplicate-free. -/
def cleanEntries (es : List (String × PyVal)) : Bool :=
  es.all (fun p => !(strStarts p.1 catTag)) && nodupKeys (es.map Prod.fst)

/-- A raw sample whose mapping payload (native or JSON-encoded) has
duplicate-free keys none of which starts with the reserved tag.  Sequence
payloads and non-mapping payloads are always safe. -/
def tagSafe (s : RawSample) : Bool :=
  match (alookup s ("value")).getD .pynone with
  | .pydict es => cleanEntries es
  | .pystr t =>
    (match jsonLoads t with
     | some (.pydict es) => cleanEntries es
     | _ => true)
  | _ => true

/-- The block of output columns that build_keys_from_samples generates for
a categorical field with retained category list cf: one is-column per
retained category, then the is-other column. -/
def oheBlock (f : String) (cf : List String) : List String :=
  cf.map (fun c => f ++ isSep ++ c) ++ [f ++ isSep ++ ("other")]

/-! Concrete inputs used by the claims and their witnesses. -/

/-- First sample of the round-trip corpus of the spec. -/
def rtS1 : RawSample :=
  [(("value"), .pydict [(("temp"), .pynum 21.5), (("mode"), .pystr ("auto"))])]

/-- Second sample of the round-trip corpus. -/
def rtS2 : RawSample :=
  [(("value"), .pydict [(("temp"), .pynum 19.0), (("mode"), .pystr ("auto"))])]

/-- Third sample of the round-trip corpus. -/
def rtS3 : RawSample :=
  [(("value"), .pydict [(("temp"), .pynum 22.1), (("mode"), .pystr ("manual"))])]

/-- The round-trip corpus of the spec. -/
def rtCorpus : List RawSample := [rtS1, rtS2, rtS3]

/-- The sample the spec encodes against the round-trip schema (its temp
value 20.0 is the rational 20). -/
def rtEnc : RawSample :=
  [(("value"), .pydict [(("temp"), .pynum 20), (("mode"), .pystr ("manual"))])]

/-- The malformed sample of the spec. -/
def notJsonSample : RawSample := [(("value"), .pystr ("not json"))]

/-- A sample whose raw payload uses the reserved tag as a literal field
name (Python: value is the dict with x mapped to 2 and _cat_x mapped to
True). -/
def collideSample : RawSample :=
  [(("value"), .pydict [(("x"), .pynum 2), (("_cat_x"), .pybool true)])]

/-- A one-sample corpus whose categorical value is the literal string
other. -/
def otherSample : RawSample := [(("value"), .pydict [(("mode"), .pystr ("other"))])]

/-- A one-sample corpus whose numeric field name contains the one-hot
separator. -/
def sepNameSample : RawSample := [(("value"), .pydict [(("a__is_b"), .pynum 1)])]

/-- A feature map holding a numeric value for the separator-named field. -/
def sepNameFields : FieldMap := [(("a__is_b"), .num 5)]

/-- The well-formedness invariant the corpus scan maintains: numeric names
are untagged, counted fields are distinct, and each counter's values are
distinct. -/
def ScanWF (acc : List (String × Counter) × List String) : Prop :=
  (∀ k ∈ acc.2, strStarts k catTag = false) ∧
  (acc.1.map Prod.fst).Nodup ∧
  (∀ p ∈ acc.1, (p.2.map Prod.fst).Nodup)

/-- The ordering most_common produces on counter entries: strictly larger
count first, ties broken by the given rank (position of first
appearance). -/
def rankRel (idx : String × Nat → Nat) (a b : String × Nat) : Prop :=
  b.2 < a.2 ∨ (a.2 = b.2 ∧ idx a < idx b)

/-- The same ordering read on category values of a fixed counter: the value
ranked earlier has a strictly larger corpus frequency, or an equal
frequency and an earlier first appearance (counter entries are created in
first-seen order). -/
def catRank (ctr : Counter) (a b : String) : Prop :=
  (alookup ctr b).getD 0 < (alookup ctr a).getD 0 ∨
  ((alookup ctr a).getD 0 = (alookup ctr b).getD 0 ∧
    List.indexOf a (ctr.map Prod.fst) < List.indexOf b (ctr.map Prod.fst))

/-! Association-list lemmas. -/

theorem alookup_append_of_ne {β : Type} (l : List (String × β)) (k key : String)
    (v : β) (h : key ≠ k) : alookup (l ++ [(k, v)]) key = alookup l key := by
  induction l with
  | nil =>
    simp [alookup]
    exact fun h2 => h h2.symm
  | cons p rest ih =>
    by_cases hp : p.1 = key <;> simp [alookup, hp, ih]

theorem alookup_append_self {β : Type} (l : List (String × β)) (k : String)
    (v : β) (h : alookup l k = none) : alookup (l ++ [(k, v)]) k = some v := by
  induction l with
  | nil => simp [alookup]
  | cons p rest ih =>
    by_cases hp : p.1 = k
    · simp [alookup, hp] at h
    · simp [alookup, hp] at h ⊢
      exact ih h

theorem alookup_isSome_iff {β : Type} (l : List (String × β)) (k : String) :
    (alookup l k).isSome = true ↔ k ∈ l.map Prod.fst := by
  induction l with
  | nil => simp [alookup]
  | cons p rest ih =>
    by_cases hp : p.1 = k
    · simp [alookup, hp]
    · have hp' : ¬k = p.1 := fun he => hp he.symm
      simp [alookup, hp, hp', ih]

theorem alookup_none_iff {β : Type} (l : List (String × β)) (k : String) :
    alookup l k = none ↔ k ∉ l.map Prod.fst := by
  rw [← alookup_isSome_iff]
  cases alookup l k <;> simp

theorem alookup_mem {β : Type} (l : List (String × β)) (k : String) (v : β)
    (h : alookup l k = some v) : (k, v) ∈ l := by
  induction l with
  | nil => simp [alookup] at h
  | cons p rest ih =>
    by_cases hp : p.1 = k
    · simp [alookup, hp] at h
      rw [← hp, ← h]
      simp
    · simp [alookup, hp] at h
      exact List.mem_cons_of_mem p (ih h)

theorem alookup_of_mem_nodup {β : Type} (l : List (String × β))
    (hnd : (l.map Prod.fst).Nodup) (p : String × β) (hm : p ∈ l) :
    alookup l p.1 = some p.2 := by
  induction l with
  | nil => simp at hm
  | cons q rest ih =>
    rw [List.map_cons, List.nodup_cons] at hnd
    rcases List.mem_cons.mp hm with hm | hm
    · simp [hm, alookup]
    · have hne : q.1 ≠ p.1 := fun he => hnd.1 (he ▸ List.mem_map_of_mem Prod.fst hm)
      simp [alookup, hne]
      exact ih hnd.2 hm

theorem alookup_map_snd {β γ : Type} (l : List (String × β)) (g : β → γ)
    (k : String) :
    alookup (l.map (fun p => (p.1, g p.2))) k = (alookup l k).map g := by
  induction l with
  | nil => simp [alookup]
  | cons p rest ih =>
    by_cases hp : p.1 = k <;> simp [alookup, hp, ih]

theorem insertOrReplace_of_absent {β : Type} (m : List (String × β))
    (k : String) (v : β) (h : alookup m k = none) :
    insertOrReplace m k v = m ++ [(k, v)] := by
  simp [insertOrReplace, h]

theorem alookup_map_replace_ne {β : Type} (m : List (String × β))
    (k k' : String) (v : β) (h : k' ≠ k) :
    alookup (m.map (fun p => if p.1 = k then (p.1, v) else p)) k' =
      alookup m k' := by
  induction m with
  | nil => simp [alookup]
  | cons p rest ih =>
    have hk : ¬k = k' := fun he => h he.symm
    by_cases hp : p.1 = k
    · have hp' : ¬p.1 = k' := by
        intro he
        exact h (by rw [← he, hp])
      simp [alookup, hp, hp', hk, ih]
    · by_cases hp' : p.1 = k' <;> simp [alookup, hp, hp', hk, h, ih]

theorem map_replace_fst {β : Type} (m : List (String × β)) (k : String)
    (v : β) :
    (m.map (fun p => if p.1 = k then (p.1, v) else p)).map Prod.fst =
      m.map Prod.fst := by
  induction m with
  | nil => rfl
  | cons p rest ih => by_cases hp : p.1 = k <;> simp [hp, ih]

theorem alookup_insertOrReplace_ne {β : Type} (m : List (String × β))
    (k k' : String) (v : β) (h : k' ≠ k) :
    alookup (insertOrReplace m k v) k' = alookup m k' := by
  unfold insertOrReplace
  by_cases hs : (alookup m k).isSome = true
  · rw [if_pos hs]
    exact alookup_map_replace_ne m k k' v h
  · rw [if_neg hs]
    exact alookup_append_of_ne m k k' v h

theorem alookup_insertOrReplace_isSome {β : Type} (m : List (String × β))
    (k k' : String) (v : β) :
    (alookup (insertOrReplace m k v) k').isSome = true ↔
      k' = k ∨ (alookup m k').isSome = true := by
  unfold insertOrReplace
  by_cases hs : (alookup m k).isSome = true
  · rw [if_pos hs, alookup_isSome_iff, map_replace_fst, ← alookup_isSome_iff]
    constructor
    · exact Or.inr
    · rintro (h | h)
      · rw [h]
        exact hs
      · exact h
  · rw [if_neg hs]
    constructor
    · intro hh
      rw [alookup_isSome_iff, List.map_append, List.mem_append] at hh
      rcases hh with hh | hh
      · exact Or.inr ((alookup_isSome_iff m k').mpr hh)
      · simp at hh
        exact Or.inl hh
    · rintro (hh | hh)
      · rw [hh, alookup_isSome_iff, List.map_append, List.mem_append]
        right
        simp
      · rw [alookup_isSome_iff, List.map_append, List.mem_append]
        left
        exact (alookup_isSome_iff m k').mp hh

/-! String and separator-splitting lemmas. -/

theorem string_data_eq (a b : String) (h : a.data = b.data) : a = b := by
  cases a
  cases b
  simp at h
  rw [h]

theorem isPrefixOf_self_append (l t : List Char) :
    l.isPrefixOf (l ++ t) = true :=
  List.isPrefixOf_iff_prefix.mpr (List.prefix_append l t)

theorem isPrefixOf_append_false (l x b : List Char) (hlen : l.length ≤ x.length)
    (h : l.isPrefixOf x = false) : l.isPrefixOf (x ++ b) = false := by
  by_contra hc
  have hpre : l.isPrefixOf (x ++ b) = true := by
    cases hv : l.isPrefixOf (x ++ b)
    · exact absurd hv hc
    · rfl
  have hp := List.isPrefixOf_iff_prefix.mp hpre
  obtain ⟨t, ht⟩ := hp
  have hx : l.isPrefixOf x = true := by
    refine List.isPrefixOf_iff_prefix.mpr ?_
    have htake : (x ++ b).take l.length = x.take l.length :=
      List.take_append_of_le_length hlen
    have hlt : l = (x ++ b).take l.length := by
      rw [← ht]
      simp
    rw [hlt, htake]
    exact List.take_prefix _ _
  rw [hx] at h
  exact Bool.noConfusion h

theorem splitFirstIs_cons_pos (c : Char) (cs : List Char)
    (h : isSep.data.isPrefixOf (c :: cs) = true) :
    splitFirstIs (c :: cs) = some ([], (c :: cs).drop 5) := by
  simp only [splitFirstIs]
  rw [if_pos h]

theorem splitFirstIs_cons_neg (c : Char) (cs : List Char)
    (h : isSep.data.isPrefixOf (c :: cs) = false) :
    splitFirstIs (c :: cs) =
      match splitFirstIs cs with
      | some r => some (c :: r.1, r.2)
      | none => none := by
  simp only [splitFirstIs]
  rw [if_neg (by simp [h])]

theorem splitFirstIs_atSep (b : List Char) :
    splitFirstIs (isSep.data ++ b) = some ([], b) := by
  have h1 : isSep.data ++ b =
      '_' :: (('_' :: 'i' :: 's' :: '_' :: ([] : List Char)) ++ b) := rfl
  have hpre : isSep.data.isPrefixOf (isSep.data ++ b) = true :=
    isPrefixOf_self_append _ _
  have hdrop : (isSep.data ++ b).drop 5 = b := by
    have h5 : isSep.data.length = 5 := rfl
    rw [← h5]
    exact List.drop_left _ _
  rw [h1] at hpre hdrop ⊢
  rw [splitFirstIs_cons_pos _ _ hpre, hdrop]

theorem splitFirstIs_structure : ∀ (cs a b : List Char),
    splitFirstIs cs = some (a, b) → cs = (a ++ isSep.data) ++ b := by
  intro cs
  induction cs with
  | nil =>
    intro a b h
    simp [splitFirstIs] at h
  | cons c cs ih =>
    intro a b h
    cases hpre : isSep.data.isPrefixOf (c :: cs) with
    | true =>
      rw [splitFirstIs_cons_pos _ _ hpre] at h
      simp only [Option.some.injEq, Prod.mk.injEq] at h
      obtain ⟨t, ht⟩ := List.isPrefixOf_iff_prefix.mp hpre
      have hdrop : (c :: cs).drop 5 = t := by
        rw [← ht]
        have h5 : isSep.data.length = 5 := rfl
        rw [← h5]
        exact List.drop_left _ _
      rw [← h.1, ← h.2, hdrop]
      rw [List.nil_append, ← ht]
    | false =>
      rw [splitFirstIs_cons_neg _ _ hpre] at h
      cases hsp : splitFirstIs cs with
      | none =>
        rw [hsp] at h
        exact Option.noConfusion h
      | some r =>
        rw [hsp] at h
        simp only [Option.some.injEq, Prod.mk.injEq] at h
        have hcs := ih r.1 r.2 (by rw [hsp])
        rw [← h.1, ← h.2]
        show c :: cs = c :: ((r.1 ++ isSep.data) ++ r.2)
        rw [← hcs]

theorem splitFirstIs_exact : ∀ (a b : List Char),
    splitFirstIs (a ++ isSep.data) = some (a, []) →
    splitFirstIs ((a ++ isSep.data) ++ b) = some (a, b) := by
  intro a
  induction a with
  | nil =>
    intro b _
    exact splitFirstIs_atSep b
  | cons c cs ih =>
    intro b h
    have hshape : (c :: cs) ++ isSep.data = c :: (cs ++ isSep.data) := rfl
    rw [hshape] at h
    cases hpre : isSep.data.isPrefixOf (c :: (cs ++ isSep.data)) with
    | true =>
      exfalso
      rw [splitFirstIs_cons_pos _ _ hpre] at h
      simp only [Option.some.injEq, Prod.mk.injEq] at h
      exact List.noConfusion h.1.symm
    | false =>
      rw [splitFirstIs_cons_neg _ _ hpre] at h
      cases hsp : splitFirstIs (cs ++ isSep.data) with
      | none =>
        exfalso
        rw [hsp] at h
        exact Option.noConfusion h
      | some r =>
        rw [hsp] at h
        simp only [Option.some.injEq, Prod.mk.injEq] at h
        have hr : r = (cs, []) := by
          cases r
          simp at h
          rw [h.1, h.2]
        rw [hr] at hsp
        have hrec := ih b hsp
        have hlen : isSep.data.length ≤ (c :: (cs ++ isSep.data)).length := by
          rw [List.length_cons, List.length_append]
          omega
        have hpre2 : isSep.data.isPrefixOf (c :: ((cs ++ isSep.data) ++ b)) = false := by
          have h0 := isPrefixOf_append_false (isSep.data) (c :: (cs ++ isSep.data)) b hlen hpre
          exact h0
        show splitFirstIs (c :: ((cs ++ isSep.data) ++ b)) = some (c :: cs, b)
        rw [splitFirstIs_cons_neg _ _ hpre2, hrec]

theorem splitFirstIs_isSome_append : ∀ (a b : List Char),
    (splitFirstIs ((a ++ isSep.data) ++ b)).isSome = true := by
  intro a
  induction a with
  | nil =>
    intro b
    show (splitFirstIs (isSep.data ++ b)).isSome = true
    rw [splitFirstIs_atSep]
    rfl
  | cons c cs ih =>
    intro b
    show (splitFirstIs (c :: ((cs ++ isSep.data) ++ b))).isSome = true
    cases hpre : isSep.data.isPrefixOf (c :: ((cs ++ isSep.data) ++ b)) with
    | true => rw [splitFirstIs_cons_pos _ _ hpre]; rfl
    | false =>
      rw [splitFirstIs_cons_neg _ _ hpre]
      cases hsp : splitFirstIs ((cs ++ isSep.data) ++ b) with
      | none =>
        have hih := ih b
        rw [hsp] at hih
        simp at hih
      | some r => rfl

theorem sep_key_data (f c : String) :
    (f ++ isSep ++ c).data = (f.data ++ isSep.data) ++ c.data := by
  rw [String.data_append, String.data_append]

theorem splitFirstIs_key (f c : String)
    (hf : splitFirstIs ((f ++ isSep).data) = some (f.data, [])) :
    splitFirstIs ((f ++ isSep ++ c).data) = some (f.data, c.data) := by
  rw [sep_key_data]
  refine splitFirstIs_exact f.data c.data ?_
  rw [String.data_append] at hf
  exact hf

theorem splitFirstIs_key_isSome (f c : String) :
    (splitFirstIs ((f ++ isSep ++ c).data)).isSome = true := by
  rw [sep_key_data]
  exact splitFirstIs_isSome_append f.data c.data

theorem strDrop_catTag_append (a : String) : strDrop (catTag ++ a) 5 = a := by
  apply string_data_eq
  show ((catTag ++ a).data.drop 5) = a.data
  rw [String.data_append]
  have h5 : catTag.data.length = 5 := rfl
  rw [← h5]
  exact List.drop_left _ _

theorem strStarts_self_append (p x : String) : strStarts (p ++ x) p = true := by
  unfold strStarts
  rw [String.data_append]
  exact isPrefixOf_self_append _ _

theorem catTag_append_inj (a b : String) (h : catTag ++ a = catTag ++ b) :
    a = b := by
  have h2 := congrArg (fun s => strDrop s 5) h
  simpa [strDrop_catTag_append] using h2

theorem catTag_append_ne (k : String) : catTag ++ k ≠ k := by
  intro h
  have h2 := congrArg (fun s => s.data.length) h
  simp only [String.data_append, List.length_append] at h2
  have h5 : catTag.data.length = 5 := rfl
  omega

theorem catTag_decomp (k : String) (h : strStarts k catTag = true) :
    k = catTag ++ strDrop k 5 := by
  unfold strStarts at h
  obtain ⟨t, ht⟩ := List.isPrefixOf_iff_prefix.mp h
  apply string_data_eq
  rw [String.data_append]
  show k.data = catTag.data ++ (k.data.drop 5)
  have hdrop : k.data.drop 5 = t := by
    rw [← ht]
    have h5 : catTag.data.length = 5 := rfl
    rw [← h5]
    exact List.drop_left _ _
  rw [hdrop, ht]

theorem strStarts_item (x : String) :
    strStarts (("item_") ++ x) catTag = false := by
  simp only [strStarts, String.data_append]
  rfl

/-! Lemmas about the encoding loop. -/

theorem encodeKeys_all_some (df : FieldMap) (cats : List (String × String))
    (cm : List (String × List String)) (keys : List String)
    (h : ∀ k ∈ keys, (encOne df cats cm k).isSome = true) :
    ∃ w, encodeKeys df cats cm keys = some w ∧ w.length = keys.length := by
  induction keys with
  | nil => exact ⟨[], rfl, rfl⟩
  | cons k ks ih =>
    obtain ⟨x, hx⟩ := Option.isSome_iff_exists.mp (h k (List.mem_cons_self k ks))
    obtain ⟨w, hw, hlen⟩ := ih (fun k2 hk2 => h k2 (List.mem_cons_of_mem k hk2))
    refine ⟨x :: w, ?_, by simp [hlen]⟩
    simp [encodeKeys, hx, hw]

theorem encodeKeys_get (df : FieldMap) (cats : List (String × String))
    (cm : List (String × List String)) :
    ∀ (keys : List String) (w : List ℚ),
      encodeKeys df cats cm keys = some w →
      ∀ i, (hi : i < keys.length) →
        ∃ x, encOne df cats cm (keys.get ⟨i, hi⟩) = some x ∧ w.get? i = some x := by
  intro keys
  induction keys with
  | nil =>
    intro w _ i hi
    exact absurd hi (by simp)
  | cons k ks ih =>
    intro w h i hi
    cases hx : encOne df cats cm k with
    | none => rw [encodeKeys, hx] at h; exact Option.noConfusion h
    | some x =>
      cases hxs : encodeKeys df cats cm ks with
      | none => rw [encodeKeys, hx, hxs] at h; exact Option.noConfusion h
      | some xs =>
        rw [encodeKeys, hx, hxs] at h
        simp only [Option.some.injEq] at h
        cases i with
        | zero => exact ⟨x, hx, by rw [← h]; rfl⟩
        | succ j =>
          have hj : j < ks.length := by
            have := hi
            simp at this
            omega
          obtain ⟨y, hy, hwy⟩ := ih xs hxs j hj
          refine ⟨y, hy, ?_⟩
          rw [← h]
          simpa using hwy

theorem encodeKeys_congr (df1 df2 : FieldMap)
    (cats1 cats2 : List (String × String))
    (cm : List (String × List String)) (keys : List String)
    (h : ∀ k ∈ keys, encOne df1 cats1 cm k = encOne df2 cats2 cm k) :
    encodeKeys df1 cats1 cm keys = encodeKeys df2 cats2 cm keys := by
  induction keys with
  | nil => rfl
  | cons k ks ih =>
    rw [encodeKeys, encodeKeys, h k (List.mem_cons_self k ks),
      ih (fun k2 hk2 => h k2 (List.mem_cons_of_mem k hk2))]

theorem encodeKeys_map_eval {α : Type} (df : FieldMap)
    (cats : List (String × String)) (cm : List (String × List String))
    (l : List α) (g : α → String) (hv : α → ℚ)
    (h : ∀ a ∈ l, encOne df cats cm (g a) = some (hv a)) :
    encodeKeys df cats cm (l.map g) = some (l.map hv) := by
  induction l with
  | nil => rfl
  | cons a as ih =>
    rw [List.map_cons, List.map_cons, encodeKeys,
      h a (List.mem_cons_self a as),
      ih (fun a2 ha2 => h a2 (List.mem_cons_of_mem a ha2))]

theorem encodeKeys_append_some (df : FieldMap) (cats : List (String × String))
    (cm : List (String × List String)) :
    ∀ (xs ys : List String) (w : List ℚ),
      encodeKeys df cats cm (xs ++ ys) = some w →
      ∃ w1 w2, w = w1 ++ w2 ∧ encodeKeys df cats cm xs = some w1 ∧
        encodeKeys df cats cm ys = some w2 ∧ w1.length = xs.length := by
  intro xs
  induction xs with
  | nil =>
    intro ys w h
    exact ⟨[], w, rfl, rfl, h, rfl⟩
  | cons k ks ih =>
    intro ys w h
    rw [List.cons_append] at h
    cases hx : encOne df cats cm k with
    | none => rw [encodeKeys, hx] at h; exact Option.noConfusion h
    | some x =>
      cases hrest : encodeKeys df cats cm (ks ++ ys) with
      | none => rw [encodeKeys, hx, hrest] at h; exact Option.noConfusion h
      | some rest =>
        rw [encodeKeys, hx, hrest] at h
        simp only [Option.some.injEq] at h
        obtain ⟨w1, w2, hw, h1, h2, hlen⟩ := ih ys rest hrest
        refine ⟨x :: w1, w2, ?_, ?_, h2, by simp [hlen]⟩
        · rw [← h, hw]
          rfl
        · rw [encodeKeys, hx, h1]

theorem encOne_empty (cm : List (String × List String)) (key : String) :
    encOne [] [] cm key = some 0 := by
  unfold encOne
  cases hsp : splitFirstIs key.data with
  | none => simp [alookup]
  | some fc => simp [alookup]

theorem vectorize_empty (keys : List String)
    (cm : List (String × List String)) :
    vectorize_with_cats [] keys cm = some (List.replicate keys.length 0) := by
  unfold vectorize_with_cats
  have hcats : catsOf ([] : FieldMap) = [] := rfl
  rw [hcats]
  induction keys with
  | nil => rfl
  | cons k ks ih =>
    rw [encodeKeys, encOne_empty, ih]
    rfl

/-! Lemmas about the key-building fold of the schema builder. -/

theorem foldl_append_blocks (g : String → List String) (h : String → String) :
    ∀ (l : List String) (init : List String),
      l.foldl (fun ks f => (ks ++ g f) ++ [h f]) init =
        init ++ (l.map (fun f => g f ++ [h f])).flatten := by
  intro l
  induction l with
  | nil => intro init; simp
  | cons f fs ih =>
    intro init
    rw [List.foldl_cons, ih, List.map_cons, List.flatten_cons]
    simp

theorem build_keys_decomp (samples : List RawSample) (max_ohe : Nat) :
    (build_keys_from_samples samples max_ohe).1 =
      numColsOf samples ++
        ((catFieldsSorted samples max_ohe).map
          (fun f => oheBlock f ((alookup (catMapOf samples max_ohe) f).getD []))).flatten := by
  show (catFieldsSorted samples max_ohe).foldl _ (numColsOf samples) = _
  rw [foldl_append_blocks
    (fun f => ((alookup (catMapOf samples max_ohe) f).getD []).map
      (fun c => f ++ isSep ++ c))
    (fun f => f ++ isSep ++ ("other"))]
  rfl

/-! Invariants of the corpus scan. -/

theorem map_fst_preserved {β : Type} (m : List (String × β))
    (g : String × β → String × β) (h : ∀ p, (g p).1 = p.1) :
    (m.map g).map Prod.fst = m.map Prod.fst := by
  induction m with
  | nil => rfl
  | cons p rest ih => simp [h, ih]

theorem bumpCount_fst (c : Counter) (v : String) :
    (bumpCount c v).map Prod.fst =
      if (alookup c v).isSome = true then c.map Prod.fst
      else c.map Prod.fst ++ [v] := by
  unfold bumpCount
  by_cases hs : (alookup c v).isSome = true
  · rw [if_pos hs, if_pos hs]
    exact map_fst_preserved c _ (fun p => by by_cases hp : p.1 = v <;> simp [hp])
  · rw [if_neg hs, if_neg hs]
    simp

theorem bumpCount_nodup (c : Counter) (v : String)
    (h : (c.map Prod.fst).Nodup) : ((bumpCount c v).map Prod.fst).Nodup := by
  rw [bumpCount_fst]
  by_cases hs : (alookup c v).isSome = true
  · rw [if_pos hs]
    exact h
  · rw [if_neg hs]
    have hv : v ∉ c.map Prod.fst := by
      intro hm
      exact hs ((alookup_isSome_iff c v).mpr hm)
    simp [List.nodup_append, h, hv]

theorem bumpCount_mem (c : Counter) (v : String) (p : String × Nat)
    (hp : p ∈ bumpCount c v) : p ∈ c ∨ p.1 = v := by
  unfold bumpCount at hp
  by_cases hs : (alookup c v).isSome = true
  · rw [if_pos hs] at hp
    obtain ⟨q, hq, hgq⟩ := List.mem_map.mp hp
    by_cases hqv : q.1 = v
    · right
      rw [← hgq]
      simp [hqv]
    · left
      rw [← hgq]
      simp [hqv]
      exact hq
  · rw [if_neg hs] at hp
    rcases List.mem_append.mp hp with hp | hp
    · exact Or.inl hp
    · right
      simp at hp
      rw [hp]

theorem bumpField_fst (cc : List (String × Counter)) (f v : String) :
    (bumpField cc f v).map Prod.fst =
      if (alookup cc f).isSome = true then cc.map Prod.fst
      else cc.map Prod.fst ++ [f] := by
  unfold bumpField
  by_cases hs : (alookup cc f).isSome = true
  · rw [if_pos hs, if_pos hs]
    exact map_fst_preserved cc _ (fun p => by by_cases hp : p.1 = f <;> simp [hp])
  · rw [if_neg hs, if_neg hs]
    simp

theorem bumpField_scanWF (cc : List (String × Counter)) (f v : String)
    (hnd : (cc.map Prod.fst).Nodup) (hctr : ∀ p ∈ cc, (p.2.map Prod.fst).Nodup) :
    ((bumpField cc f v).map Prod.fst).Nodup ∧
      (∀ p ∈ bumpField cc f v, (p.2.map Prod.fst).Nodup) := by
  constructor
  · rw [bumpField_fst]
    by_cases hs : (alookup cc f).isSome = true
    · rw [if_pos hs]
      exact hnd
    · rw [if_neg hs]
      have hv : f ∉ cc.map Prod.fst := by
        intro hm
        exact hs ((alookup_isSome_iff cc f).mpr hm)
      simp [List.nodup_append, hnd, hv]
  · intro p hp
    unfold bumpField at hp
    by_cases hs : (alookup cc f).isSome = true
    · rw [if_pos hs] at hp
      obtain ⟨q, hq, hgq⟩ := List.mem_map.mp hp
      by_cases hqf : q.1 = f
      · rw [← hgq]
        simp [hqf]
        exact bumpCount_nodup q.2 v (hctr q hq)
      · rw [← hgq]
        simp [hqf]
        exact hctr q hq
    · rw [if_neg hs] at hp
      rcases List.mem_append.mp hp with hp | hp
      · exact hctr p hp
      · simp at hp
        rw [hp]
        simp [bumpCount, alookup]

theorem scan_step_WF (fm : FieldMap) :
    ∀ acc, ScanWF acc →
      ScanWF (fm.foldl
        (fun acc2 p =>
          if strStarts p.1 catTag then
            (bumpField acc2.1 (strDrop p.1 5) (pyStr p.2), acc2.2)
          else (acc2.1, addIfAbsent acc2.2 p.1))
        acc) := by
  induction fm with
  | nil => exact fun acc h => h
  | cons p rest ih =>
    intro acc hacc
    rw [List.foldl_cons]
    apply ih
    cases htag : strStarts p.1 catTag with
    | true =>
      rw [if_pos rfl]
      obtain ⟨h1, h2, h3⟩ := hacc
      exact ⟨h1, (bumpField_scanWF acc.1 _ _ h2 h3).1,
        (bumpField_scanWF acc.1 _ _ h2 h3).2⟩
    | false =>
      rw [if_neg (by simp)]
      obtain ⟨h1, h2, h3⟩ := hacc
      refine ⟨?_, h2, h3⟩
      intro k hk
      unfold addIfAbsent at hk
      by_cases hmem : p.1 ∈ acc.2
      · rw [if_pos hmem] at hk
        exact h1 k hk
      · rw [if_neg hmem] at hk
        rcases List.mem_append.mp hk with hk | hk
        · exact h1 k hk
        · simp at hk
          rw [hk, htag]

theorem scanCorpus_WF (samples : List RawSample) :
    ScanWF (scanCorpus samples) := by
  unfold scanCorpus
  have hgen : ∀ (ss : List RawSample) (acc : List (String × Counter) × List String),
      ScanWF acc →
      ScanWF (ss.foldl
        (fun acc s =>
          (extract_numeric_features s).foldl
            (fun acc2 p =>
              if strStarts p.1 catTag then
                (bumpField acc2.1 (strDrop p.1 5) (pyStr p.2), acc2.2)
              else (acc2.1, addIfAbsent acc2.2 p.1))
            acc)
        acc) := by
    intro ss
    induction ss with
    | nil => exact fun acc h => h
    | cons s rest ih =>
      intro acc hacc
      rw [List.foldl_cons]
      exact ih _ (scan_step_WF _ _ hacc)
  exact hgen samples ([], []) ⟨by simp, by simp, by simp⟩

theorem numericNames_clean (samples : List RawSample) :
    ∀ k ∈ numericNamesOf samples, strStarts k catTag = false :=
  (scanCorpus_WF samples).1

theorem catCounts_keys_nodup (samples : List RawSample) :
    ((catCountsOf samples).map Prod.fst).Nodup :=
  (scanCorpus_WF samples).2.1

theorem catCounts_counter_nodup (samples : List RawSample) :
    ∀ p ∈ catCountsOf samples, (p.2.map Prod.fst).Nodup :=
  (scanCorpus_WF samples).2.2

/-! The stable descending sort behind most_common. -/

theorem insertDesc_perm (p : String × Nat) :
    ∀ (l : Counter), (insertDesc p l).Perm (p :: l) := by
  intro l
  induction l with
  | nil => exact List.Perm.refl _
  | cons q rest ih =>
    unfold insertDesc
    by_cases hq : p.2 ≤ q.2
    · rw [if_pos hq]
      exact ((ih.cons q).trans (List.Perm.swap p q rest))
    · rw [if_neg hq]

theorem sortDescSnd_perm (l : Counter) : (sortDescSnd l).Perm l := by
  unfold sortDescSnd
  have hgen : ∀ (rest acc : Counter),
      (rest.foldl (fun acc p => insertDesc p acc) acc).Perm (acc ++ rest) := by
    intro rest
    induction rest with
    | nil => intro acc; simp
    | cons p ps ih =>
      intro acc
      rw [List.foldl_cons]
      refine ((ih (insertDesc p acc)).trans ?_)
      have h1 : (insertDesc p acc ++ ps).Perm ((p :: acc) ++ ps) :=
        (insertDesc_perm p acc).append_right ps
      refine h1.trans ?_
      show (p :: (acc ++ ps)).Perm (acc ++ p :: ps)
      exact List.perm_middle.symm
  simpa using hgen l []

theorem most_common_nodup (c : Counter) (n : Nat)
    (h : (c.map Prod.fst).Nodup) : (most_common c n).Nodup := by
  unfold most_common
  rw [List.map_take]
  have hperm : ((sortDescSnd c).map Prod.fst).Perm (c.map Prod.fst) :=
    (sortDescSnd_perm c).map Prod.fst
  have hnd : ((sortDescSnd c).map Prod.fst).Nodup := hperm.nodup_iff.mpr h
  exact List.Nodup.sublist (List.take_sublist n _) hnd

theorem most_common_length (c : Counter) (n : Nat) :
    (most_common c n).length = min n c.length := by
  unfold most_common
  rw [List.length_map, List.length_take, (sortDescSnd_perm c).length_eq]

theorem most_common_mem (c : Counter) (n : Nat) (v : String)
    (h : v ∈ most_common c n) : v ∈ c.map Prod.fst := by
  unfold most_common at h
  rw [List.map_take] at h
  have h2 := List.mem_of_mem_take h
  exact (((sortDescSnd_perm c).map Prod.fst).mem_iff).mp h2

theorem rankRel_snd_le (idx : String × Nat → Nat) (a b : String × Nat)
    (h : rankRel idx a b) : b.2 ≤ a.2 := by
  rcases h with h | h
  · exact Nat.le_of_lt h
  · exact Nat.le_of_eq h.1.symm

theorem insertDesc_pairwise (idx : String × Nat → Nat) (x : String × Nat) :
    ∀ (acc : Counter), acc.Pairwise (rankRel idx) →
      (∀ y ∈ acc, idx y < idx x) →
      (insertDesc x acc).Pairwise (rankRel idx) := by
  intro acc
  induction acc with
  | nil =>
    intro _ _
    simp [insertDesc]
  | cons y ys ih =>
    intro hp hidx
    rw [List.pairwise_cons] at hp
    unfold insertDesc
    by_cases hy : x.2 ≤ y.2
    · rw [if_pos hy]
      rw [List.pairwise_cons]
      constructor
      · intro w hw
        rcases List.mem_cons.mp ((insertDesc_perm x ys).mem_iff.mp hw) with hw | hw
        · rw [hw]
          rcases Nat.lt_or_ge x.2 y.2 with hlt | hge
          · exact Or.inl hlt
          · have heq : y.2 = x.2 := Nat.le_antisymm hge hy
            exact Or.inr ⟨heq, hidx y (List.mem_cons_self y ys)⟩
        · exact hp.1 w hw
      · exact ih hp.2 (fun y2 hy2 => hidx y2 (List.mem_cons_of_mem y hy2))
    · rw [if_neg hy]
      have hlt : y.2 < x.2 := Nat.lt_of_not_le hy
      rw [List.pairwise_cons]
      constructor
      · intro w hw
        rcases List.mem_cons.mp hw with hw | hw
        · rw [hw]
          exact Or.inl hlt
        · exact Or.inl (Nat.lt_of_le_of_lt (rankRel_snd_le idx y w (hp.1 w hw)) hlt)
      · rw [List.pairwise_cons]
        exact ⟨hp.1, hp.2⟩

theorem foldl_insertDesc_pairwise (idx : String × Nat → Nat) :
    ∀ (l acc : Counter), acc.Pairwise (rankRel idx) →
      (∀ y ∈ acc, ∀ x ∈ l, idx y < idx x) →
      l.Pairwise (fun a b => idx a < idx b) →
      (l.foldl (fun acc p => insertDesc p acc) acc).Pairwise (rankRel idx) := by
  intro l
  induction l with
  | nil => exact fun acc h _ _ => h
  | cons x xs ih =>
    intro acc hacc hcross hl
    rw [List.pairwise_cons] at hl
    rw [List.foldl_cons]
    refine ih _ ?_ ?_ hl.2
    · exact insertDesc_pairwise idx x acc hacc
        (fun y hy => hcross y hy x (List.mem_cons_self x xs))
    · intro y hy x2 hx2
      rcases List.mem_cons.mp ((insertDesc_perm x acc).mem_iff.mp hy) with hy | hy
      · rw [hy]
        exact hl.1 x2 hx2
      · exact hcross y hy x2 (List.mem_cons_of_mem x hx2)

theorem pairwise_indexOf_of_nodup :
    ∀ (c : Counter), (c.map Prod.fst).Nodup →
      c.Pairwise (fun a b =>
        List.indexOf a.1 (c.map Prod.fst) < List.indexOf b.1 (c.map Prod.fst)) := by
  intro c
  induction c with
  | nil => intro _; exact List.Pairwise.nil
  | cons p rest ih =>
    intro hnd
    rw [List.map_cons, List.nodup_cons] at hnd
    rw [List.pairwise_cons]
    constructor
    · intro q hq
      have hqne : p.1 ≠ q.1 := by
        intro he
        exact hnd.1 (he ▸ List.mem_map_of_mem Prod.fst hq)
      rw [List.map_cons, List.indexOf_cons_self,
        List.indexOf_cons_ne (rest.map Prod.fst) hqne]
      exact Nat.succ_pos _
    · refine (ih hnd.2).imp_of_mem ?_
      intro a b ha hb hr
      have hane : p.1 ≠ a.1 := by
        intro he
        exact hnd.1 (he ▸ List.mem_map_of_mem Prod.fst ha)
      have hbne : p.1 ≠ b.1 := by
        intro he
        exact hnd.1 (he ▸ List.mem_map_of_mem Prod.fst hb)
      rw [List.map_cons, List.indexOf_cons_ne (rest.map Prod.fst) hane,
        List.indexOf_cons_ne (rest.map Prod.fst) hbne]
      exact Nat.succ_lt_succ hr

theorem most_common_pairwise (c : Counter) (n : Nat)
    (h : (c.map Prod.fst).Nodup) :
    (most_common c n).Pairwise (catRank c) := by
  unfold most_common
  refine List.pairwise_map.mpr ?_
  have hsorted : (sortDescSnd c).Pairwise
      (rankRel (fun p => List.indexOf p.1 (c.map Prod.fst))) := by
    unfold sortDescSnd
    exact foldl_insertDesc_pairwise _ c [] List.Pairwise.nil
      (fun y hy => absurd hy (List.not_mem_nil y))
      (pairwise_indexOf_of_nodup c h)
  have htake := List.Pairwise.sublist (List.take_sublist n (sortDescSnd c)) hsorted
  refine htake.imp_of_mem ?_
  intro a b ha hb hr
  have ha2 : a ∈ c := (sortDescSnd_perm c).mem_iff.mp (List.mem_of_mem_take ha)
  have hb2 : b ∈ c := (sortDescSnd_perm c).mem_iff.mp (List.mem_of_mem_take hb)
  have hla : alookup c a.1 = some a.2 := alookup_of_mem_nodup c h a ha2
  have hlb : alookup c b.1 = some b.2 := alookup_of_mem_nodup c h b hb2
  rcases hr with hr | hr
  · exact Or.inl (by rw [hla, hlb]; exact hr)
  · exact Or.inr ⟨by rw [hla, hlb]; exact hr.1, hr.2⟩

theorem catMap_lookup (samples : List RawSample) (max_ohe : Nat) (f : String) :
    alookup (catMapOf samples max_ohe) f =
      (alookup (catCountsOf samples) f).map (fun ctr => most_common ctr max_ohe) := by
  unfold catMapOf
  exact alookup_map_snd (catCountsOf samples) (fun ctr => most_common ctr max_ohe) f

/-! Injectivity of the decimal rendering of the synthesized item names. -/

theorem digitsAux_undigits : ∀ (fuel n : Nat), n ≤ fuel →
    undigits (digitsAux fuel n) = n := by
  intro fuel
  induction fuel with
  | zero =>
    intro n h
    have hn : n = 0 := Nat.le_zero.mp h
    simp [digitsAux, undigits, hn]
  | succ fuel ih =>
    intro n h
    by_cases hn : n = 0
    · simp [digitsAux, hn, undigits]
    · rw [digitsAux, if_neg hn, undigits]
      have hrec : n / 10 ≤ fuel := by
        have h1 : n / 10 < n := Nat.div_lt_self (Nat.pos_of_ne_zero hn) (by omega)
        omega
      rw [ih (n / 10) hrec]
      exact Nat.mod_add_div n 10

theorem digitsAux_lt10 : ∀ (fuel n : Nat), ∀ d ∈ digitsAux fuel n, d < 10 := by
  intro fuel
  induction fuel with
  | zero => intro n d hd; simp [digitsAux] at hd
  | succ fuel ih =>
    intro n d hd
    by_cases hn : n = 0
    · simp [digitsAux, hn] at hd
    · rw [digitsAux, if_neg hn] at hd
      rcases List.mem_cons.mp hd with hd | hd
      · rw [hd]
        exact Nat.mod_lt n (by omega)
      · exact ih (n / 10) d hd

theorem digitChar_inj : ∀ a : Nat, a < 10 → ∀ b : Nat, b < 10 →
    digitChar a = digitChar b → a = b := by decide

theorem map_digitChar_inj : ∀ (l1 l2 : List Nat), (∀ d ∈ l1, d < 10) →
    (∀ d ∈ l2, d < 10) → l1.map digitChar = l2.map digitChar → l1 = l2 := by
  intro l1
  induction l1 with
  | nil =>
    intro l2 _ _ h
    cases l2 with
    | nil => rfl
    | cons e es => simp at h
  | cons d ds ih =>
    intro l2 h1 h2 h
    cases l2 with
    | nil => simp at h
    | cons e es =>
      simp only [List.map_cons, List.cons.injEq] at h
      have hd := digitChar_inj d (h1 d (List.mem_cons_self d ds)) e
        (h2 e (List.mem_cons_self e es)) h.1
      rw [hd, ih es (fun x hx => h1 x (List.mem_cons_of_mem d hx))
        (fun x hx => h2 x (List.mem_cons_of_mem e hx)) h.2]

theorem natDigits_undigits (n : Nat) : undigits (natDigits n) = n :=
  digitsAux_undigits n n (Nat.le_refl n)

theorem natStr_ne_zero_case (b : Nat) (hb : b ≠ 0) :
    String.mk (((natDigits b).map digitChar).reverse) ≠ ("0") := by
  intro h
  have hd := congrArg String.data h
  have hd2 : ((natDigits b).map digitChar).reverse = ['0'] := hd
  have hd3 : (natDigits b).map digitChar = ['0'] := by
    have h2 := congrArg List.reverse hd2
    simpa using h2
  have hb0 : natDigits b = [0] := by
    refine map_digitChar_inj (natDigits b) [0] (digitsAux_lt10 b b) ?_ ?_
    · intro d hd4
      simp at hd4
      omega
    · rw [hd3]
      rfl
  have hu := natDigits_undigits b
  rw [hb0] at hu
  simp [undigits] at hu
  exact hb hu.symm

theorem natStr_inj (a b : Nat) (h : natStr a = natStr b) : a = b := by
  unfold natStr at h
  by_cases ha : a = 0 <;> by_cases hb : b = 0
  · rw [ha, hb]
  · rw [if_pos ha, if_neg hb] at h
    exact absurd h.symm (natStr_ne_zero_case b hb)
  · rw [if_neg ha, if_pos hb] at h
    exact absurd h (natStr_ne_zero_case a ha)
  · rw [if_neg ha, if_neg hb] at h
    have hd : ((natDigits a).map digitChar).reverse =
        ((natDigits b).map digitChar).reverse := congrArg String.data h
    have hd2 : (natDigits a).map digitChar = (natDigits b).map digitChar := by
      have h2 := congrArg List.reverse hd
      simpa using h2
    have hdig := map_digitChar_inj (natDigits a) (natDigits b)
      (digitsAux_lt10 a a) (digitsAux_lt10 b b) hd2
    have hua := natDigits_undigits a
    rw [hdig, natDigits_undigits b] at hua
    exact hua.symm

theorem append_left_cancel_str (p x y : String) (h : p ++ x = p ++ y) :
    x = y := by
  apply string_data_eq
  have hd := congrArg String.data h
  rw [String.data_append, String.data_append] at hd
  exact List.append_cancel_left hd

theorem nodupKeys_iff (l : List String) : nodupKeys l = true ↔ l.Nodup := by
  induction l with
  | nil => simp [nodupKeys]
  | cons k ks ih =>
    simp [nodupKeys, List.nodup_cons, ih, List.contains, List.elem_iff]

theorem enumItems_fst (items : List PyVal) :
    (enumItems items).map Prod.fst =
      (List.range items.length).map (fun i => ("item_") ++ natStr i) := by
  unfold enumItems
  rw [List.map_map]
  rw [show (Prod.fst ∘ fun p : Nat × PyVal => (("item_") ++ natStr p.1, p.2)) =
    ((fun i => ("item_") ++ natStr i) ∘ Prod.fst) from rfl]
  rw [← List.map_map, List.enum_map_fst]

theorem enumItems_clean (items : List PyVal) :
    cleanEntries (enumItems items) = true := by
  unfold cleanEntries
  rw [Bool.and_eq_true]
  constructor
  · rw [List.all_eq_true]
    intro p hp
    unfold enumItems at hp
    obtain ⟨q, _, hq⟩ := List.mem_map.mp hp
    rw [← hq]
    simp [strStarts_item]
  · rw [nodupKeys_iff, enumItems_fst]
    refine List.Nodup.map ?_ (List.nodup_range items.length)
    intro i j hij
    exact natStr_inj i j (append_left_cancel_str ("item_") _ _ hij)

/-! Tag exclusivity of the per-entry processing. -/

theorem procEntry_cases (acc : FieldMap) (k : String) (v : PyVal) :
    procEntry acc k v = acc ∨
    (∃ q, procEntry acc k v = insertOrReplace acc k (FieldVal.num q)) ∨
    (∃ s, procEntry acc k v = insertOrReplace acc (catTag ++ k) (FieldVal.str s)) := by
  unfold procEntry
  cases v with
  | pybool b => exact Or.inr (Or.inl ⟨if b then 1 else 0, rfl⟩)
  | pynum q => exact Or.inr (Or.inl ⟨q, rfl⟩)
  | pystr s =>
    cases hf : tryFloat (.pystr s) with
    | some q => exact Or.inr (Or.inl ⟨q, rfl⟩)
    | none => exact Or.inr (Or.inr ⟨s, rfl⟩)
  | pylist items =>
    cases hf : tryFloat (.pylist items) with
    | some q => exact Or.inr (Or.inl ⟨q, rfl⟩)
    | none => exact Or.inl rfl
  | pydict es =>
    cases hf : tryFloat (.pydict es) with
    | some q => exact Or.inr (Or.inl ⟨q, rfl⟩)
    | none => exact Or.inl rfl
  | pynone =>
    cases hf : tryFloat .pynone with
    | some q => exact Or.inr (Or.inl ⟨q, rfl⟩)
    | none => exact Or.inl rfl

theorem procEntries_fold_safe :
    ∀ (es : List (String × PyVal)) (acc : FieldMap),
      (∀ p ∈ es, strStarts p.1 catTag = false) →
      (es.map Prod.fst).Nodup →
      (∀ f, ¬((alookup acc f).isSome = true ∧
        (alookup acc (catTag ++ f)).isSome = true)) →
      (∀ k2, (alookup acc k2).isSome = true →
        ∃ k0, (k2 = k0 ∨ k2 = catTag ++ k0) ∧ strStarts k0 catTag = false ∧
          k0 ∉ es.map Prod.fst) →
      ∀ f, ¬((alookup (es.foldl (fun acc kv => procEntry acc kv.1 kv.2) acc) f).isSome = true ∧
        (alookup (es.foldl (fun acc kv => procEntry acc kv.1 kv.2) acc) (catTag ++ f)).isSome = true) := by
  intro es
  induction es with
  | nil => exact fun acc _ _ hexcl _ => hexcl
  | cons e rest ih =>
    intro acc hclean hnd hexcl hprov
    rw [List.foldl_cons]
    have hkclean : strStarts e.1 catTag = false :=
      hclean e (List.mem_cons_self e rest)
    have hknotin : e.1 ∉ rest.map Prod.fst := by
      rw [List.map_cons, List.nodup_cons] at hnd
      exact hnd.1
    have hndrest : (rest.map Prod.fst).Nodup := by
      rw [List.map_cons, List.nodup_cons] at hnd
      exact hnd.2
    have hcleanrest : ∀ p ∈ rest, strStarts p.1 catTag = false :=
      fun p hp => hclean p (List.mem_cons_of_mem e hp)
    rcases procEntry_cases acc e.1 e.2 with hc | ⟨q, hc⟩ | ⟨s, hc⟩
    · rw [hc]
      refine ih acc hcleanrest hndrest hexcl ?_
      intro k2 hk2
      obtain ⟨k0, hor, hcl, hnin⟩ := hprov k2 hk2
      exact ⟨k0, hor, hcl, fun hm => hnin (List.mem_cons_of_mem _ hm)⟩
    · rw [hc]
      refine ih _ hcleanrest hndrest ?_ ?_
      · intro f ⟨hf, hcf⟩
        rw [alookup_insertOrReplace_isSome] at hf hcf
        rcases hf with hf | hf
        · rcases hcf with hcf | hcf
          · rw [hf] at hcf
            exact catTag_append_ne e.1 hcf
          · obtain ⟨k0, hor, hcl, hnin⟩ := hprov (catTag ++ f) hcf
            rcases hor with hor | hor
            · rw [← hor] at hcl
              rw [strStarts_self_append] at hcl
              exact Bool.noConfusion hcl
            · have hk0 : k0 = f := (catTag_append_inj f k0 hor).symm
              rw [hk0, hf] at hnin
              exact hnin (by rw [List.map_cons]; exact List.mem_cons_self e.1 _)
        · rcases hcf with hcf | hcf
          · rw [← hcf, strStarts_self_append] at hkclean
            exact Bool.noConfusion hkclean
          · exact hexcl f ⟨hf, hcf⟩
      · intro k2 hk2
        rw [alookup_insertOrReplace_isSome] at hk2
        rcases hk2 with hk2 | hk2
        · exact ⟨e.1, Or.inl hk2, hkclean, hknotin⟩
        · obtain ⟨k0, hor, hcl, hnin⟩ := hprov k2 hk2
          exact ⟨k0, hor, hcl, fun hm => hnin (List.mem_cons_of_mem _ hm)⟩
    · rw [hc]
      refine ih _ hcleanrest hndrest ?_ ?_
      · intro f ⟨hf, hcf⟩
        rw [alookup_insertOrReplace_isSome] at hf hcf
        rcases hf with hf | hf
        · rcases hcf with hcf | hcf
          · have hfk : f = e.1 := catTag_append_inj f e.1 hcf
            rw [hfk] at hf
            exact catTag_append_ne e.1 hf.symm
          · obtain ⟨k0, hor, hcl, hnin⟩ := hprov (catTag ++ f) hcf
            rcases hor with hor | hor
            · rw [← hor, strStarts_self_append] at hcl
              exact Bool.noConfusion hcl
            · have hk0 : k0 = f := (catTag_append_inj f k0 hor).symm
              rw [hk0, hf, strStarts_self_append] at hcl
              exact Bool.noConfusion hcl
        · rcases hcf with hcf | hcf
          · have hfk : f = e.1 := catTag_append_inj f e.1 hcf
            obtain ⟨k0, hor, hcl, hnin⟩ := hprov f hf
            rcases hor with hor | hor
            · rw [← hor, hfk] at hnin
              exact hnin (by rw [List.map_cons]; exact List.mem_cons_self e.1 _)
            · have hst : strStarts e.1 catTag = true := by
                rw [← hfk, hor]
                exact strStarts_self_append catTag k0
              rw [hkclean] at hst
              exact Bool.noConfusion hst
          · exact hexcl f ⟨hf, hcf⟩
      · intro k2 hk2
        rw [alookup_insertOrReplace_isSome] at hk2
        rcases hk2 with hk2 | hk2
        · exact ⟨e.1, Or.inr hk2, hkclean, hknotin⟩
        · obtain ⟨k0, hor, hcl, hnin⟩ := hprov k2 hk2
          exact ⟨k0, hor, hcl, fun hm => hnin (List.mem_cons_of_mem _ hm)⟩

theorem cleanEntries_unpack (es : List (String × PyVal))
    (h : cleanEntries es = true) :
    (∀ p ∈ es, strStarts p.1 catTag = false) ∧ (es.map Prod.fst).Nodup := by
  unfold cleanEntries at h
  rw [Bool.and_eq_true] at h
  constructor
  · intro p hp
    have h2 := (List.all_eq_true.mp h.1) p hp
    simp at h2
    exact h2
  · exact (nodupKeys_iff _).mp h.2

theorem procEntries_safe (es : List (String × PyVal))
    (h : cleanEntries es = true) :
    ∀ f, ¬((alookup (procEntries es) f).isSome = true ∧
      (alookup (procEntries es) (catTag ++ f)).isSome = true) := by
  obtain ⟨h1, h2⟩ := cleanEntries_unpack es h
  refine procEntries_fold_safe es [] h1 h2 ?_ ?_
  · intro f hff
    simp [alookup] at hff
  · intro k2 hk2
    simp [alookup] at hk2

/-! Evaluation of the encoder on one-hot columns. -/

theorem encodeKeys_append_both (df : FieldMap) (cats : List (String × String))
    (cm : List (String × List String)) :
    ∀ (xs ys : List String) (w1 w2 : List ℚ),
      encodeKeys df cats cm xs = some w1 →
      encodeKeys df cats cm ys = some w2 →
      encodeKeys df cats cm (xs ++ ys) = some (w1 ++ w2) := by
  intro xs
  induction xs with
  | nil =>
    intro ys w1 w2 h1 h2
    rw [show encodeKeys df cats cm [] = some [] from rfl] at h1
    simp only [Option.some.injEq] at h1
    rw [← h1]
    simpa using h2
  | cons k ks ih =>
    intro ys w1 w2 h1 h2
    cases hx : encOne df cats cm k with
    | none => rw [encodeKeys, hx] at h1; exact Option.noConfusion h1
    | some x =>
      cases hks : encodeKeys df cats cm ks with
      | none => rw [encodeKeys, hx, hks] at h1; exact Option.noConfusion h1
      | some xs2 =>
        rw [encodeKeys, hx, hks] at h1
        simp only [Option.some.injEq] at h1
        rw [List.cons_append, encodeKeys, hx, ih ys xs2 w2 hks h2, ← h1]
        rfl

theorem encOne_sep_key (df : FieldMap) (cats : List (String × String))
    (cm : List (String × List String)) (f c : String)
    (hf : splitFirstIs ((f ++ isSep).data) = some (f.data, [])) :
    encOne df cats cm (f ++ isSep ++ c) =
      some (match alookup cats f with
        | none => 0
        | some cv =>
          if c = ("other") then (if cv ∈ (alookup cm f).getD [] then 0 else 1)
          else if cv = c then 1 else 0) := by
  unfold encOne
  rw [splitFirstIs_key f c hf]

theorem encOne_sep_key_present (df : FieldMap) (cats : List (String × String))
    (cm : List (String × List String)) (f c cv : String)
    (hsplit : splitFirstIs ((f ++ isSep).data) = some (f.data, []))
    (hcv : alookup cats f = some cv) :
    encOne df cats cm (f ++ isSep ++ c) =
      some (if c = ("other") then
        (if cv ∈ (alookup cm f).getD [] then 0 else 1)
      else if cv = c then 1 else 0) := by
  rw [encOne_sep_key df cats cm f c hsplit, hcv]

theorem encOne_sep_key_absent (df : FieldMap) (cats : List (String × String))
    (cm : List (String × List String)) (f c : String)
    (hsplit : splitFirstIs ((f ++ isSep).data) = some (f.data, []))
    (hcv : alookup cats f = none) :
    encOne df cats cm (f ++ isSep ++ c) = some 0 := by
  rw [encOne_sep_key df cats cm f c hsplit, hcv]

theorem count_one_of_mem (cv : String) :
    ∀ (cf : List String), cf.Nodup → cv ∈ cf →
      (cf.map (fun c => if cv = c then (1 : ℚ) else 0)).count 1 = 1 := by
  intro cf
  induction cf with
  | nil => intro _ hm; simp at hm
  | cons c cs ih =>
    intro hnd hm
    rw [List.nodup_cons] at hnd
    rw [List.map_cons, List.count_cons]
    by_cases hc : cv = c
    · have hnm : cv ∉ cs := by
        rw [hc]
        exact hnd.1
      rw [if_pos hc]
      have hz : (cs.map (fun c => if cv = c then (1 : ℚ) else 0)).count 1 = 0 := by
        rw [List.count_eq_zero]
        intro hmem
        obtain ⟨c2, hc2, he⟩ := List.mem_map.mp hmem
        by_cases h2 : cv = c2
        · exact hnm (h2 ▸ hc2)
        · rw [if_neg h2] at he
          exact absurd he (by norm_num)
      rw [hz]
      simp
    · rw [if_neg hc]
      rcases List.mem_cons.mp hm with hm2 | hm2
      · exact absurd hm2 hc
      · rw [ih hnd.2 hm2]
        simp

theorem count_one_of_not_mem (cv : String) :
    ∀ (cf : List String), cv ∉ cf →
      (cf.map (fun c => if cv = c then (1 : ℚ) else 0)).count 1 = 0 := by
  intro cf hnm
  rw [List.count_eq_zero]
  intro hmem
  obtain ⟨c2, hc2, he⟩ := List.mem_map.mp hmem
  by_cases h2 : cv = c2
  · exact hnm (h2 ▸ hc2)
  · rw [if_neg h2] at he
    exact absurd he (by norm_num)

/-! The claim theorems. -/

/-- C3: on the round-trip corpus of the spec with max_categories = 1, the
builder returns exactly the columns temp, mode__is_auto, mode__is_other
(auto is retained, manual falls to other), and encoding the extracted
FieldMap of the temp-20.0/mode-manual sample against that schema returns
exactly the vector [20.0, 0.0, 1.0]. -/
theorem c3_round_trip :
    build_keys_from_samples rtCorpus 1 =
      ([("temp"), ("mode__is_auto"), ("mode__is_other")],
        [(("mode"), [("auto")])]) ∧
    vectorize_with_cats (extract_numeric_features rtEnc)
      (build_keys_from_samples rtCorpus 1).1
      (build_keys_from_samples rtCorpus 1).2 = some [20, 0, 1] := by
  constructor
  · decide
  · decide

/-- C9: extract_numeric_features applied to a sample whose value is the
non-JSON string not json returns the empty FieldMap, and encoding the
empty FieldMap against any schema returns an all-zero vector whose length
is the number of schema columns. -/
theorem c9_malformed_all_zeros :
    extract_numeric_features notJsonSample = [] ∧
    ∀ (keys : List String) (cm : List (String × List String)),
      vectorize_with_cats [] keys cm = some (List.replicate keys.length 0) :=
  ⟨by decide, vectorize_empty⟩

/-- C7: extraction is total by construction (it is a Lean function, hence
terminates and returns a FieldMap on every input, the fallible coercions
and the JSON parse being modelled by Option values exactly where the
source catches exceptions); moreover on every malformed payload - one that
is not a mapping, not a sequence, and not a string parsing to a JSON
mapping - it returns the empty FieldMap rather than an error. -/
theorem c7_extract_total (s : RawSample)
    (h : malformedPayload ((alookup s ("value")).getD .pynone) = true) :
    extract_numeric_features s = [] := by
  unfold extract_numeric_features
  unfold malformedPayload at h
  cases hv : (alookup s ("value")).getD .pynone with
  | pydict es =>
    rw [hv] at h
    exact Bool.noConfusion h
  | pylist items =>
    rw [hv] at h
    exact Bool.noConfusion h
  | pystr t =>
    rw [hv] at h
    have h2 : (match jsonLoads t with
      | some (.pydict _) => false
      | _ => true) = true := h
    show (match jsonLoads t with
      | some (.pydict es) => procEntries es
      | _ => []) = []
    cases hj : jsonLoads t with
    | none => rfl
    | some v2 =>
      rw [hj] at h2
      cases v2
      case pydict es => exact Bool.noConfusion h2
      all_goals rfl
  | pybool b => rfl
  | pynum q => rfl
  | pynone => rfl

/-- Witness for C7 at the concrete malformed sample whose value is the
bare number 3 (a scalar payload). -/
theorem c7_extract_total_witness :
    malformedPayload ((alookup [(("value"), PyVal.pynum 3)] ("value")).getD .pynone) = true ∧
    extract_numeric_features [(("value"), PyVal.pynum 3)] = [] :=
  ⟨by decide, c7_extract_total [(("value"), PyVal.pynum 3)] (by decide)⟩

/-- C2 counterexample: on the one-sample corpus whose only categorical
value is the literal string other, the retained category is other itself,
the builder emits the column mode__is_other twice, and encoding the very
sample the corpus was built from - mode present with value other - yields
[0.0, 0.0]: no column of the field is 1.0, refuting one-hot exclusivity as
claimed. -/
theorem c2_onehot_counterexample :
    alookup (catsOf (extract_numeric_features otherSample)) ("mode") =
      some ("other") ∧
    (build_keys_from_samples [otherSample] 10).2 = [(("mode"), [("other")])] ∧
    (build_keys_from_samples [otherSample] 10).1 =
      [("mode__is_other"), ("mode__is_other")] ∧
    vectorize_with_cats (extract_numeric_features otherSample)
      (build_keys_from_samples [otherSample] 10).1
      (build_keys_from_samples [otherSample] 10).2 = some [0, 0] := by
  refine ⟨by decide, by decide, by decide, by decide⟩

/-- C6 counterexample: a numeric field literally named a__is_b is a
numeric schema column, yet because the encoder dispatches on the one-hot
separator occurring in the column name, a FieldMap holding 5.0 for that
field encodes to 0.0, not to its numeric value. -/
theorem c6_zero_fill_counterexample :
    (build_keys_from_samples [sepNameSample] 10).1 = [("a__is_b")] ∧
    alookup sepNameFields ("a__is_b") = some (.num 5) ∧
    vectorize_with_cats sepNameFields
      (build_keys_from_samples [sepNameSample] 10).1
      (build_keys_from_samples [sepNameSample] 10).2 = some [0] ∧
    (0 : ℚ) ≠ 5 := by
  refine ⟨by decide, by decide, by decide, by decide⟩

/-- C8 counterexample: for the payload mapping x to 2 and the literally
tag-named key _cat_x to True, extraction stores both a numeric entry at
key x and a numeric entry at the tagged key _cat_x, so downstream the
field x is simultaneously a numeric column and a categorical field of the
builder. -/
theorem c8_tag_collision_counterexample :
    (alookup (extract_numeric_features collideSample) ("x")).isSome = true ∧
    (alookup (extract_numeric_features collideSample) (catTag ++ ("x"))).isSome = true ∧
    ("x") ∈ (build_keys_from_samples [collideSample] 10).1 ∧
    (alookup (build_keys_from_samples [collideSample] 10).2 ("x")).isSome = true := by
  refine ⟨by decide, by decide, by decide, by decide⟩

/-- C4: for every corpus and bound, each categorical field's plan is a
duplicate-free list of observed values of length min(bound, distinct
values), hence at most the bound, ordered by strictly descending corpus
frequency with equal frequencies ordered by first appearance during the
corpus iteration (the accumulated counter lists values in first-seen
order, so the tie-break rank is the counter position). -/
theorem c4_category_plan (corpus : List RawSample) (max_ohe : Nat)
    (f : String) (cf : List String)
    (h : alookup (build_keys_from_samples corpus max_ohe).2 f = some cf) :
    ∃ ctr, alookup (catCountsOf corpus) f = some ctr ∧
      cf.length ≤ max_ohe ∧
      cf.length = min max_ohe ctr.length ∧
      cf.Nodup ∧
      (∀ c ∈ cf, c ∈ ctr.map Prod.fst) ∧
      cf.Pairwise (catRank ctr) := by
  have hb : (build_keys_from_samples corpus max_ohe).2 =
    catMapOf corpus max_ohe := rfl
  rw [hb, catMap_lookup] at h
  cases hctr : alookup (catCountsOf corpus) f with
  | none =>
    rw [hctr] at h
    exact Option.noConfusion h
  | some ctr =>
    rw [hctr] at h
    simp only [Option.map_some', Option.some.injEq] at h
    have hnodup : (ctr.map Prod.fst).Nodup :=
      catCounts_counter_nodup corpus (f, ctr) (alookup_mem _ f ctr hctr)
    refine ⟨ctr, rfl, ?_, ?_, ?_, ?_, ?_⟩
    · rw [← h, most_common_length]
      exact Nat.min_le_left _ _
    · rw [← h, most_common_length]
    · rw [← h]
      exact most_common_nodup ctr max_ohe hnodup
    · intro c hc
      rw [← h] at hc
      exact most_common_mem ctr max_ohe c hc
    · rw [← h]
      exact most_common_pairwise ctr max_ohe hnodup

/-- Witness for C4 at the round-trip corpus and its mode field. -/
theorem c4_category_plan_witness :
    alookup (build_keys_from_samples rtCorpus 1).2 ("mode") = some [("auto")] ∧
    (∃ ctr, alookup (catCountsOf rtCorpus) ("mode") = some ctr ∧
      ([("auto")] : List String).length ≤ 1 ∧
      ([("auto")] : List String).length = min 1 ctr.length ∧
      ([("auto")] : List String).Nodup ∧
      (∀ c ∈ ([("auto")] : List String), c ∈ ctr.map Prod.fst) ∧
      ([("auto")] : List String).Pairwise (catRank ctr)) :=
  ⟨by decide, c4_category_plan rtCorpus 1 ("mode") [("auto")] (by decide)⟩

/-- C5: the builder's column list decomposes as the lexicographically
sorted numeric names followed by one contiguous block per categorical
field, the fields in lexicographically sorted name order, each block being
the field's is-columns in plan order followed by its is-other column. -/
theorem c5_column_order (corpus : List RawSample) (max_ohe : Nat) :
    ∃ (numCols fields : List String),
      (build_keys_from_samples corpus max_ohe).1 =
        numCols ++ (fields.map (fun f =>
          oheBlock f
            ((alookup (build_keys_from_samples corpus max_ohe).2 f).getD []))).flatten ∧
      numCols.Sorted (· ≤ ·) ∧ fields.Sorted (· ≤ ·) ∧
      numCols.Perm (numericNamesOf corpus) ∧
      fields.Perm (((build_keys_from_samples corpus max_ohe).2).map Prod.fst) := by
  refine ⟨numColsOf corpus, catFieldsSorted corpus max_ohe, ?_, ?_, ?_, ?_, ?_⟩
  · exact build_keys_decomp corpus max_ohe
  · unfold numColsOf
    exact List.sorted_insertionSort _ _
  · unfold catFieldsSorted
    exact List.sorted_insertionSort _ _
  · unfold numColsOf
    refine (List.perm_insertionSort _ _).trans ?_
    rw [List.filter_eq_self.mpr ?_]
    intro k hk
    simp [numericNames_clean corpus k hk]
  · unfold catFieldsSorted
    exact List.perm_insertionSort _ _

theorem build_catmap_nodup (corpus : List RawSample) (max_ohe : Nat)
    (f : String) (cf : List String)
    (h : alookup (build_keys_from_samples corpus max_ohe).2 f = some cf) :
    cf.Nodup := by
  have hb : (build_keys_from_samples corpus max_ohe).2 =
    catMapOf corpus max_ohe := rfl
  rw [hb, catMap_lookup] at h
  cases hctr : alookup (catCountsOf corpus) f with
  | none =>
    rw [hctr] at h
    exact Option.noConfusion h
  | some ctr =>
    rw [hctr] at h
    simp only [Option.map_some', Option.some.injEq] at h
    rw [← h]
    exact most_common_nodup ctr max_ohe
      (catCounts_counter_nodup corpus (f, ctr) (alookup_mem _ f ctr hctr))

/-- C2 (amended): for every schema built from a corpus and every
categorical field f with retained categories cf, provided f's name
partitions cleanly (the first occurrence of the one-hot separator in f
with the separator appended is the appended one - violated only by names
containing the separator or ending in its first four characters) and the
literal string other is not among f's retained categories (the
counterexample shows both provisos are forced), the block of f's columns
appears contiguously in the schema and encodes any FieldMap as follows:
with a categorical value present for f, exactly one block entry is 1.0
and every entry is 0.0 or 1.0; with none present, the block is all
zeros. -/
theorem c2_onehot_exclusive (corpus : List RawSample) (max_ohe : Nat)
    (f : String) (cf : List String) (fm : FieldMap)
    (hlk : alookup (build_keys_from_samples corpus max_ohe).2 f = some cf)
    (hsplit : splitFirstIs ((f ++ isSep).data) = some (f.data, []))
    (hother : ("other") ∉ cf) :
    (∃ pre post, (build_keys_from_samples corpus max_ohe).1 =
      pre ++ (oheBlock f cf ++ post)) ∧
    (∀ cv, alookup (catsOf fm) f = some cv →
      ∃ w, vectorize_with_cats fm (oheBlock f cf)
          (build_keys_from_samples corpus max_ohe).2 = some w ∧
        w.count 1 = 1 ∧ (∀ x ∈ w, x = 0 ∨ x = 1)) ∧
    (alookup (catsOf fm) f = none →
      vectorize_with_cats fm (oheBlock f cf)
          (build_keys_from_samples corpus max_ohe).2 =
        some (List.replicate (cf.length + 1) 0)) := by
  have hb : (build_keys_from_samples corpus max_ohe).2 =
    catMapOf corpus max_ohe := rfl
  have hnodup : cf.Nodup := build_catmap_nodup corpus max_ohe f cf hlk
  refine ⟨?_, ?_, ?_⟩
  · have hmem : f ∈ catFieldsSorted corpus max_ohe := by
      unfold catFieldsSorted
      rw [(List.perm_insertionSort (· ≤ ·) _).mem_iff]
      rw [← hb]
      exact (alookup_isSome_iff _ f).mp (by rw [hlk]; rfl)
    obtain ⟨l1, l2, hl⟩ := List.append_of_mem hmem
    refine ⟨numColsOf corpus ++
      ((l1.map (fun g => oheBlock g
        ((alookup (catMapOf corpus max_ohe) g).getD []))).flatten),
      ((l2.map (fun g => oheBlock g
        ((alookup (catMapOf corpus max_ohe) g).getD []))).flatten), ?_⟩
    rw [build_keys_decomp, hl, List.map_append, List.map_cons,
      List.flatten_append, List.flatten_cons]
    have hcf : (alookup (catMapOf corpus max_ohe) f).getD [] = cf := by
      rw [← hb, hlk]
      rfl
    rw [hcf]
    simp [List.append_assoc]
  · intro cv hcv
    have hmap : encodeKeys fm (catsOf fm) (build_keys_from_samples corpus max_ohe).2
        (cf.map (fun c => f ++ isSep ++ c)) =
        some (cf.map (fun c => if cv = c then (1 : ℚ) else 0)) := by
      refine encodeKeys_map_eval _ _ _ cf _ _ ?_
      intro c hc
      have hcne : ¬c = ("other") := fun he => hother (he ▸ hc)
      rw [encOne_sep_key_present _ _ _ f c cv hsplit hcv, if_neg hcne]
    have hoth : encodeKeys fm (catsOf fm) (build_keys_from_samples corpus max_ohe).2
        [f ++ isSep ++ ("other")] =
        some [if cv ∈ cf then (0 : ℚ) else 1] := by
      have h1 := encOne_sep_key_present fm (catsOf fm)
        (build_keys_from_samples corpus max_ohe).2 f ("other") cv hsplit hcv
      rw [if_pos rfl, hlk, Option.getD_some] at h1
      rw [encodeKeys, h1]
      rfl
    refine ⟨cf.map (fun c => if cv = c then (1 : ℚ) else 0) ++
      [if cv ∈ cf then (0 : ℚ) else 1], ?_, ?_, ?_⟩
    · exact encodeKeys_append_both _ _ _ _ _ _ _ hmap hoth
    · rw [List.count_append]
      by_cases hm : cv ∈ cf
      · rw [count_one_of_mem cv cf hnodup hm, if_pos hm]
        rfl
      · rw [count_one_of_not_mem cv cf hm, if_neg hm]
        rfl
    · intro x hx
      rcases List.mem_append.mp hx with hx | hx
      · obtain ⟨c, _, hc⟩ := List.mem_map.mp hx
        by_cases h2 : cv = c
        · right
          rw [← hc, if_pos h2]
        · left
          rw [← hc, if_neg h2]
      · simp at hx
        by_cases hm : cv ∈ cf
        · left
          rw [hx, if_pos hm]
        · right
          rw [hx, if_neg hm]
  · intro hnone
    unfold vectorize_with_cats oheBlock
    have hmap : encodeKeys fm (catsOf fm) (build_keys_from_samples corpus max_ohe).2
        (cf.map (fun c => f ++ isSep ++ c)) =
        some (cf.map (fun _ => (0 : ℚ))) := by
      refine encodeKeys_map_eval _ _ _ cf _ _ ?_
      intro c hc
      rw [encOne_sep_key_absent _ _ _ f c hsplit hnone]
    have hoth : encodeKeys fm (catsOf fm) (build_keys_from_samples corpus max_ohe).2
        [f ++ isSep ++ ("other")] = some [(0 : ℚ)] := by
      rw [encodeKeys, encOne_sep_key_absent _ _ _ f ("other") hsplit hnone]
      rfl
    rw [encodeKeys_append_both _ _ _ _ _ _ _ hmap hoth]
    congr 1
    rw [List.map_const', List.replicate_succ']

/-- Witness for C2 at the round-trip schema, the mode field, and the
FieldMap extracted from the mode-manual sample. -/
theorem c2_onehot_exclusive_witness :
    alookup (build_keys_from_samples rtCorpus 1).2 ("mode") = some [("auto")] ∧
    splitFirstIs ((("mode") ++ isSep).data) = some (("mode").data, []) ∧
    (("other") ∉ ([("auto")] : List String)) ∧
    ((∃ pre post, (build_keys_from_samples rtCorpus 1).1 =
        pre ++ (oheBlock ("mode") [("auto")] ++ post)) ∧
      (∀ cv, alookup (catsOf (extract_numeric_features rtEnc)) ("mode") = some cv →
        ∃ w, vectorize_with_cats (extract_numeric_features rtEnc)
            (oheBlock ("mode") [("auto")])
            (build_keys_from_samples rtCorpus 1).2 = some w ∧
          w.count 1 = 1 ∧ (∀ x ∈ w, x = 0 ∨ x = 1)) ∧
      (alookup (catsOf (extract_numeric_features rtEnc)) ("mode") = none →
        vectorize_with_cats (extract_numeric_features rtEnc)
            (oheBlock ("mode") [("auto")])
            (build_keys_from_samples rtCorpus 1).2 =
          some (List.replicate (([("auto")] : List String).length + 1) 0))) :=
  ⟨by decide, by decide, by decide,
    c2_onehot_exclusive rtCorpus 1 ("mode") [("auto")]
      (extract_numeric_features rtEnc) (by decide) (by decide) (by decide)⟩

/-- C10 counterexample: with the schema whose single column is literally
named _cat_f (no column starts with f plus the separator, so the claim's
hypotheses hold), adding the tagged categorical entry for field f changes
the output: the added string is looked up by the numeric column of the
same name and float() raises where the two-run equality claims no
change. -/
theorem build_keys_shape (corpus : List RawSample) (max_ohe : Nat) (key : String)
    (hk : key ∈ (build_keys_from_samples corpus max_ohe).1) :
    (splitFirstIs key.data).isSome = true ∨ strStarts key catTag = false := by
  rw [build_keys_decomp] at hk
  rcases List.mem_append.mp hk with hk | hk
  · right
    unfold numColsOf at hk
    have hk2 := (List.perm_insertionSort (· ≤ ·) _).mem_iff.mp hk
    have hk3 := List.mem_filter.mp hk2
    simpa using hk3.2
  · left
    obtain ⟨block, hbl, hkb⟩ := List.mem_flatten.mp hk
    obtain ⟨f, hf, hfb⟩ := List.mem_map.mp hbl
    rw [← hfb] at hkb
    unfold oheBlock at hkb
    rcases List.mem_append.mp hkb with hkb | hkb
    · obtain ⟨c, _, hc⟩ := List.mem_map.mp hkb
      rw [← hc]
      exact splitFirstIs_key_isSome f c
    · simp at hkb
      rw [hkb]
      exact splitFirstIs_key_isSome f ("other")

/-- C1: for every well-formed FieldMap (untagged entries hold numbers, the
invariant extraction guarantees) and every schema the builder produced,
encoding succeeds and the vector's length equals the number of schema
columns, whatever fields are present or absent. -/
theorem c1_encode_length (corpus : List RawSample) (max_ohe : Nat)
    (fm : FieldMap) (hwf : fieldMapWF fm = true) :
    ∃ w, vectorize_with_cats fm (build_keys_from_samples corpus max_ohe).1
        (build_keys_from_samples corpus max_ohe).2 = some w ∧
      w.length = (build_keys_from_samples corpus max_ohe).1.length := by
  unfold vectorize_with_cats
  refine encodeKeys_all_some _ _ _ _ ?_
  intro key hk
  cases hsp : splitFirstIs key.data with
  | some fc =>
    unfold encOne
    rw [hsp]
    rfl
  | none =>
    rcases build_keys_shape corpus max_ohe key hk with hs | hs
    · rw [hsp] at hs
      exact Bool.noConfusion hs
    · unfold encOne
      rw [hsp]
      cases hlk : alookup fm key with
      | none => rfl
      | some v =>
        have hmem := alookup_mem fm key v hlk
        have hwfv := List.all_eq_true.mp hwf (key, v) hmem
        rw [show ((key, v).1) = key from rfl, hs] at hwfv
        simp only [Bool.false_or] at hwfv
        cases v with
        | num q => rfl
        | str s2 => simp [FieldVal.isNum] at hwfv

/-- Witness for C1 at the round-trip corpus and its encoded sample. -/
theorem c1_encode_length_witness :
    fieldMapWF (extract_numeric_features rtEnc) = true ∧
    (∃ w, vectorize_with_cats (extract_numeric_features rtEnc)
        (build_keys_from_samples rtCorpus 1).1
        (build_keys_from_samples rtCorpus 1).2 = some w ∧
      w.length = (build_keys_from_samples rtCorpus 1).1.length) :=
  ⟨by decide,
    c1_encode_length rtCorpus 1 (extract_numeric_features rtEnc) (by decide)⟩

/-- C6 (amended): the zero-fill and pass-through behaviour of numeric
columns holds for every column whose name does not contain the one-hot
separator (the encoder dispatches on that substring, so a numeric column
literally containing it is mis-routed, as the counterexample shows): if
the column has no entry in the FieldMap its encoded value is exactly 0.0,
and if it has a numeric entry its encoded value is that number. -/
theorem c6_zero_fill (fm : FieldMap) (keys : List String)
    (cm : List (String × List String)) (w : List ℚ) (i : Nat)
    (hv : vectorize_with_cats fm keys cm = some w)
    (hi : i < keys.length)
    (hs : splitFirstIs (keys.get ⟨i, hi⟩).data = none) :
    (alookup fm (keys.get ⟨i, hi⟩) = none → w.get? i = some 0) ∧
    (∀ q, alookup fm (keys.get ⟨i, hi⟩) = some (.num q) → w.get? i = some q) := by
  unfold vectorize_with_cats at hv
  obtain ⟨x, hx, hwx⟩ := encodeKeys_get fm (catsOf fm) cm keys w hv i hi
  unfold encOne at hx
  rw [hs] at hx
  constructor
  · intro hnone
    rw [hnone] at hx
    simp only [Option.some.injEq] at hx
    rw [hwx, ← hx]
  · intro q hq
    rw [hq] at hx
    simp only [pyFloat, Option.some.injEq] at hx
    rw [hwx, ← hx]

/-- Witness for C6 on a one-column schema with the field present. -/
theorem c6_zero_fill_witness :
    vectorize_with_cats [(("temp"), FieldVal.num 7)] [("temp")] [] = some [7] ∧
    splitFirstIs ((([("temp")] : List String).get ⟨0, by decide⟩).data) = none ∧
    ((alookup [(("temp"), FieldVal.num 7)]
        (([("temp")] : List String).get ⟨0, by decide⟩) = none →
          ([7] : List ℚ).get? 0 = some 0) ∧
      (∀ q, alookup [(("temp"), FieldVal.num 7)]
        (([("temp")] : List String).get ⟨0, by decide⟩) = some (.num q) →
          ([7] : List ℚ).get? 0 = some q)) :=
  ⟨by decide, by decide,
    c6_zero_fill [(("temp"), FieldVal.num 7)] [("temp")] [] [7] 0
      (by decide) (by decide) (by decide)⟩

theorem catsOf_append_single (fm : FieldMap) (k : String) (v : FieldVal) :
    catsOf (fm ++ [(k, v)]) =
      if strStarts k catTag then
        insertOrReplace (catsOf fm) (strDrop k 5) (pyStr v)
      else catsOf fm := by
  unfold catsOf
  rw [List.foldl_append]
  rfl

theorem catsOf_keys_origin :
    ∀ (fm : FieldMap) (acc : List (String × String)),
      ∀ g ∈ ((fm.foldl
        (fun cs p =>
          if strStarts p.1 catTag then
            insertOrReplace cs (strDrop p.1 5) (pyStr p.2)
          else cs)
        acc).map Prod.fst),
        g ∈ acc.map Prod.fst ∨ (catTag ++ g) ∈ fm.map Prod.fst := by
  intro fm
  induction fm with
  | nil => exact fun acc g hg => Or.inl hg
  | cons p rest ih =>
    intro acc g hg
    rw [List.foldl_cons] at hg
    rcases ih _ g hg with hg2 | hg2
    · cases ht : strStarts p.1 catTag with
      | true =>
        rw [if_pos ht] at hg2
        have hg3 := (alookup_isSome_iff _ g).mpr hg2
        rw [alookup_insertOrReplace_isSome] at hg3
        rcases hg3 with hgd | hgs
        · right
          rw [List.map_cons, hgd, ← catTag_decomp p.1 ht]
          exact List.mem_cons_self _ _
        · exact Or.inl ((alookup_isSome_iff _ g).mp hgs)
      | false =>
        rw [if_neg (by simp [ht])] at hg2
        exact Or.inl hg2
    · right
      rw [List.map_cons]
      exact List.mem_cons_of_mem _ hg2

theorem catsOf_mem_isSome (fm : FieldMap) (g : String)
    (h : g ∈ (catsOf fm).map Prod.fst) :
    (catTag ++ g) ∈ fm.map Prod.fst := by
  rcases catsOf_keys_origin fm [] g h with h2 | h2
  · simp at h2
  · exact h2

/-- C10 (amended): encoding depends only on the fields the schema
references.  Adding a numeric entry whose untagged key is not a schema
column, or a tagged categorical entry for a field none of whose one-hot
columns exist in the schema, leaves the output unchanged - provided (the
amendment the counterexample forces) the tagged key itself is not
literally a schema column, since such a column would look the added string
up on the numeric path. -/
theorem c10_encode_depends_only_on_schema :
    (∀ (fm : FieldMap) (keys : List String) (cm : List (String × List String))
        (k : String) (q : ℚ),
      strStarts k catTag = false → k ∉ keys →
      vectorize_with_cats (fm ++ [(k, FieldVal.num q)]) keys cm =
        vectorize_with_cats fm keys cm) ∧
    (∀ (fm : FieldMap) (keys : List String) (cm : List (String × List String))
        (f v : String),
      alookup fm (catTag ++ f) = none →
      (∀ key ∈ keys, strStarts key (f ++ isSep) = false) →
      (catTag ++ f) ∉ keys →
      vectorize_with_cats (fm ++ [(catTag ++ f, FieldVal.str v)]) keys cm =
        vectorize_with_cats fm keys cm) := by
  constructor
  · intro fm keys cm k q hk hnk
    unfold vectorize_with_cats
    rw [catsOf_append_single, if_neg (by simp [hk])]
    refine encodeKeys_congr _ _ _ _ _ _ ?_
    intro key hkey
    unfold encOne
    cases hsp : splitFirstIs key.data with
    | some fc => rfl
    | none =>
      have hne : key ≠ k := fun he => hnk (he ▸ hkey)
      rw [alookup_append_of_ne fm k key _ hne]
  · intro fm keys cm f v hfm hkeys hnk
    unfold vectorize_with_cats
    rw [catsOf_append_single, if_pos (strStarts_self_append catTag f),
      strDrop_catTag_append]
    have hf_not : alookup (catsOf fm) f = none := by
      rw [alookup_none_iff]
      intro hmem
      have h2 := catsOf_mem_isSome fm f hmem
      rw [alookup_none_iff] at hfm
      exact hfm h2
    rw [insertOrReplace_of_absent _ _ _ hf_not]
    refine encodeKeys_congr _ _ _ _ _ _ ?_
    intro key hkey
    unfold encOne
    cases hsp : splitFirstIs key.data with
    | none =>
      have hne : key ≠ catTag ++ f := fun he => hnk (he ▸ hkey)
      rw [alookup_append_of_ne _ _ _ _ hne]
    | some fc =>
      have hfield : String.mk fc.1 ≠ f := by
        intro he
        have hstruct := splitFirstIs_structure key.data fc.1 fc.2 hsp
        have hfd : fc.1 = f.data := by
          rw [← he]
        have hst : strStarts key (f ++ isSep) = true := by
          unfold strStarts
          rw [String.data_append, hstruct, hfd]
          exact isPrefixOf_self_append _ _
        rw [hkeys key hkey] at hst
        exact Bool.noConfusion hst
      simp only [alookup_append_of_ne (catsOf fm) f (String.mk fc.1)
        (pyStr (FieldVal.str v)) hfield]

/-- Witness for C10: both kinds of schema-irrelevant additions at a
concrete one-column schema. -/
theorem c10_schema_witness :
    (strStarts ("b") catTag = false ∧ ("b") ∉ [("a")] ∧
      vectorize_with_cats ([] ++ [(("b"), FieldVal.num 1)]) [("a")] [] =
        vectorize_with_cats [] [("a")] []) ∧
    (alookup ([] : FieldMap) (catTag ++ ("g")) = none ∧
      (∀ key ∈ [("a")], strStarts key (("g") ++ isSep) = false) ∧
      (catTag ++ ("g")) ∉ [("a")] ∧
      vectorize_with_cats ([] ++ [(catTag ++ ("g"), FieldVal.str ("zz"))]) [("a")] [] =
        vectorize_with_cats [] [("a")] []) :=
  ⟨⟨by decide, by decide,
      c10_encode_depends_only_on_schema.1 [] [("a")] [] ("b") 1
        (by decide) (by decide)⟩,
    ⟨by decide, by decide, by decide,
      c10_encode_depends_only_on_schema.2 [] [("a")] [] ("g") ("zz")
        (by decide) (by decide) (by decide)⟩⟩

theorem c10_irrelevant_entry_counterexample :
    alookup ([] : FieldMap) (catTag ++ ("f")) = none ∧
    (∀ key ∈ [("_cat_f")], strStarts key (("f") ++ isSep) = false) ∧
    (catTag ++ ("f")) ∈ [("_cat_f")] ∧
    vectorize_with_cats ([(catTag ++ ("f"), FieldVal.str ("zz"))])
        [("_cat_f")] [] ≠
      vectorize_with_cats [] [("_cat_f")] [] := by
  refine ⟨by decide, by decide, by decide, by decide⟩

/-- C8 (amended): a field is never both numeric and categorical in one
extracted FieldMap, for every raw sample whose mapping payload (native or
JSON-decoded) has duplicate-free keys none of which starts with the
reserved tag: the FieldMap never holds an entry at a key and another at
the tagged version of that key.  Sequence, scalar and malformed payloads
need no proviso.  The counterexample shows the proviso is forced: a raw
key that itself starts with the tag collides with the tagging
convention. -/
theorem c8_numeric_xor_categorical (s : RawSample) (hsafe : tagSafe s = true) :
    ∀ f, ¬((alookup (extract_numeric_features s) f).isSome = true ∧
      (alookup (extract_numeric_features s) (catTag ++ f)).isSome = true) := by
  unfold extract_numeric_features
  unfold tagSafe at hsafe
  cases hv : (alookup s ("value")).getD .pynone with
  | pydict es =>
    rw [hv] at hsafe
    exact procEntries_safe es hsafe
  | pystr t =>
    rw [hv] at hsafe
    have hsafe2 : (match jsonLoads t with
      | some (.pydict es) => cleanEntries es
      | _ => true) = true := hsafe
    show ∀ f, ¬((alookup (match jsonLoads t with
        | some (.pydict es) => procEntries es
        | _ => []) f).isSome = true ∧
      (alookup (match jsonLoads t with
        | some (.pydict es) => procEntries es
        | _ => []) (catTag ++ f)).isSome = true)
    cases hj : jsonLoads t with
    | none =>
      intro f hf
      simp [alookup] at hf
    | some v2 =>
      rw [hj] at hsafe2
      cases v2 with
      | pydict es => exact procEntries_safe es hsafe2
      | pybool b => intro f hf; simp [alookup] at hf
      | pynum q => intro f hf; simp [alookup] at hf
      | pystr t2 => intro f hf; simp [alookup] at hf
      | pylist items => intro f hf; simp [alookup] at hf
      | pynone => intro f hf; simp [alookup] at hf
  | pylist items => exact procEntries_safe (enumItems items) (enumItems_clean items)
  | pybool b => intro f hf; simp [alookup] at hf
  | pynum q => intro f hf; simp [alookup] at hf
  | pynone => intro f hf; simp [alookup] at hf

/-- Witness for C8 at the first round-trip sample. -/
theorem c8_numeric_xor_categorical_witness :
    tagSafe rtS1 = true ∧
    ∀ f, ¬((alookup (extract_numeric_features rtS1) f).isSome = true ∧
      (alookup (extract_numeric_features rtS1) (catTag ++ f)).isSome = true) :=
  ⟨by decide, c8_numeric_xor_categorical rtS1 (by decide)⟩

end FeatureUtils
